import Mathlib

/-!
Backup policy validation, backup path scheme and the atomic update loop

A shallow embedding of

* `pkg/apis/etcd/v1beta2/backup.go`  (`BackupPolicy.Validate`),
* `pkg/backup/backupapi/api.go`      (`ToS3Prefix`),
* `test/e2e/e2eutil/crd_util.go`     (`AtomicUpdateClusterCR`, `UpdateCluster`),

together with the parts of the Go standard library (`path.Clean`, `path.Join`)
that `ToS3Prefix` runs, and with the components that the files above only
declare or call and that are given here as the specification describes them:
the retry loop `retryutil.Retry`, the backup status tracker and the deletion
waiter `WaitBackupDeleted`.

Conventions of the embedding:

* a Go `int` is an `Int` (only sign tests and comparisons occur, no overflow);
* a Go `string` is a Lean `String`; the byte level loops of package `path`
  run over the list of characters, which is exact because the only bytes they
  inspect are the ASCII bytes `/` and `.`;
* a Go `float64` that is computed with is a `Float64`, whose arithmetic rounds
  as IEEE 754 binary64 does (`round64`);
* a Go pointer that may be nil is an `Option`;
* a Go `error` is an `Option GoError`, `none` being `nil`.
-/

set_option autoImplicit false

/-! Errors -/

/-- The error values that occur: `errors.New` strings, API status errors
(classified by their reason) and the retry-budget error of the retry loop. -/
inductive GoError where
  /-- An error made by `errors.New` or `fmt.Errorf`, identified by its message. -/
  | errorString (s : String)
  /-- An API status error carrying a reason such as `Conflict` or `NotFound`. -/
  | status (reason : String) (message : String)
  /-- The error of a retry loop that used up its budget of `n` attempts. -/
  | retry (n : Int)
  deriving DecidableEq, Repr

namespace v1beta2

/-! `pkg/apis/etcd/v1beta2/backup.go` -/

/-- The Go type `BackupStorageType`, a string. -/
abbrev BackupStorageType := String

def BackupStorageTypeDefault : BackupStorageType := ""

def BackupStorageTypePersistentVolume : BackupStorageType := "PersistentVolume"

def BackupStorageTypeS3 : BackupStorageType := "S3"

def BackupStorageTypeABS : BackupStorageType := "ABS"

/-- The package level error `errPVZeroSize`. -/
def errPVZeroSize : GoError :=
  GoError.errorString "PV backup should not have 0 size volume"

/-- Modelled from the spec: the pod policy type is declared outside the files
at hand; the spec calls it an optional pod-creation policy that this core does
not inspect, so it carries no field here. -/
structure PodPolicy where
  deriving DecidableEq, Repr

/-- Modelled from the spec: the type `PVSource` is declared outside the files
at hand; the spec gives it as `{ VolumeSizeInMB: int }`. -/
structure PVSource where
  VolumeSizeInMB : Int
  deriving DecidableEq, Repr

structure S3Source where
  S3Bucket : String
  Prefix : String
  AWSSecret : String
  deriving DecidableEq, Repr

structure ABSSource where
  ABSContainer : String
  ABSSecret : String
  deriving DecidableEq, Repr

structure StorageSource where
  PV : Option PVSource
  S3 : Option S3Source
  ABS : Option ABSSource
  deriving DecidableEq, Repr

/-- The struct `BackupPolicy`; the embedded `StorageSource` is the parent
structure. -/
structure BackupPolicy extends StorageSource where
  Pod : Option PodPolicy
  StorageType : BackupStorageType
  BackupIntervalInSecond : Int
  MaxBackups : Int
  AutoDelete : Bool
  deriving DecidableEq, Repr

/-- The method `(bp *BackupPolicy) Validate() error`. -/
def BackupPolicy.Validate (bp : BackupPolicy) : Option GoError :=
  if bp.MaxBackups < 0 then
    some (GoError.errorString "MaxBackups value should be >= 0")
  else if bp.StorageType = BackupStorageTypePersistentVolume then
    match bp.toStorageSource.PV with
    | none => some errPVZeroSize
    | some pv => if pv.VolumeSizeInMB ≤ 0 then some errPVZeroSize else none
  else
    none

end v1beta2

namespace path

/-! Package `path` of the Go standard library -/

/-- The test `r+k == n || path[r+k] == '/'` on the unread rest of the path:
the read position is at the end of the path or at a slash. -/
def atSep : List Char → Bool
  | [] => true
  | c :: _ => c == '/'

/-- The test `path[r+1] == '.' && (r+2 == n || path[r+2] == '/')` on the rest
after `path[r]`. It is only evaluated when that rest is not empty. -/
def dotThenSep : List Char → Bool
  | [] => false
  | d :: r2 => d == '.' && atSep r2

/-- The inner loop `for out.w > dotdot && out.index(out.w) != '/' { out.w-- }`
of the `..` case, as a function of the write index `w` over the bytes written
so far. -/
def backtrack (buf : List Char) (dotdot : Nat) : Nat → Nat
  | 0 => 0
  | w + 1 =>
    if dotdot < w + 1 ∧ buf.getD (w + 1) '/' ≠ '/' then backtrack buf dotdot w
    else w + 1

/-- The step `if rooted && out.w != 1 || !rooted && out.w != 0 { out.append('/') }`
that precedes the copy of a real path element. -/
def addSlash (rooted : Bool) (out : List Char) : List Char :=
  if (rooted = true ∧ out.length ≠ 1) ∨ (rooted = false ∧ out.length ≠ 0) then out ++ ['/']
  else out

/-- The main loop `for r < n { switch ... }` of `Clean`. The argument `rest`
is `path[r:]`, `out` holds the `out.w` bytes written so far, and the result is
the final buffer with the final `dotdot`. Every round reads at least one byte,
so as many rounds as `rest` has bytes always suffice. -/
def cleanLoop (rooted : Bool) : Nat → List Char → List Char → Nat → List Char × Nat
  | 0, _, out, dotdot => (out, dotdot)
  | _ + 1, [], out, dotdot => (out, dotdot)
  | fuel + 1, c :: r1, out, dotdot =>
    if c = '/' then
      -- empty path element
      cleanLoop rooted fuel r1 out dotdot
    else if c = '.' ∧ atSep r1 = true then
      -- . element
      cleanLoop rooted fuel r1 out dotdot
    else if c = '.' ∧ dotThenSep r1 = true then
      -- .. element: remove to last /
      if dotdot < out.length then
        cleanLoop rooted fuel (r1.drop 1)
          (out.take (backtrack out dotdot (out.length - 1))) dotdot
      else if rooted = false then
        let out1 := (if 0 < out.length then out ++ ['/'] else out) ++ ['.', '.']
        cleanLoop rooted fuel (r1.drop 1) out1 out1.length
      else
        cleanLoop rooted fuel (r1.drop 1) out dotdot
    else
      -- real path element: add slash if needed, then copy the element
      cleanLoop rooted fuel ((c :: r1).dropWhile (fun x => x != '/'))
        (addSlash rooted out ++ (c :: r1).takeWhile (fun x => x != '/')) dotdot

/-- The loop of `Clean` run on the rest `path[r:]` of the path, with as many
rounds as that rest has bytes. -/
def cleanRun (rooted : Bool) (rest out : List Char) (dotdot : Nat) : List Char × Nat :=
  cleanLoop rooted rest.length rest out dotdot

/-- The function `path.Clean` on the bytes of the path. -/
def cleanChars (p : List Char) : List Char :=
  match p with
  | [] => ['.']
  | c :: r1 =>
    let rooted : Bool := c == '/'
    let out :=
      if rooted then (cleanRun true r1 ['/'] 1).1
      else (cleanRun false p [] 0).1
    -- Turn empty string into "."
    if out.length = 0 then ['.'] else out

/-- The function `path.Clean`. -/
def Clean (p : String) : String := ⟨cleanChars p.data⟩

/-- The function `strings.Join(elems, "/")`. -/
def joinSlash : List String → String
  | [] => ""
  | [e] => e
  | e :: es => e ++ "/" ++ joinSlash es

/-- The function `path.Join`: the elements from the first non-empty one on are
joined with slashes and the result is cleaned; with no non-empty element the
result is the empty string. -/
def Join : List String → String
  | [] => ""
  | e :: es => if e ≠ "" then Clean (joinSlash (e :: es)) else Join es

/-- A path element that the loop of `Clean` copies unchanged: not empty,
without a slash, and neither `.` nor `..`. -/
def plainSeg (seg : List Char) : Prop :=
  seg ≠ [] ∧ '/' ∉ seg ∧ seg ≠ ['.'] ∧ seg ≠ ['.', '.']

end path

namespace backupapi

/-! `pkg/backup/backupapi/api.go` -/

def APIV1 : String := "/v1"

/-- The constant `S3V1`, version 1 of the S3 backup format. -/
def S3V1 : String := "v1"

/-- The function `ToS3Prefix(s3Prefix, namespace, clusterName string) string`. -/
def ToS3Prefix (s3Prefix ns clusterName : String) : String :=
  path.Join [s3Prefix, S3V1, ns, clusterName]

/-- An identifier of the collision-safe alphabet: not empty, without a slash,
and neither `.` nor `..`. -/
def collisionSafe (s : String) : Prop :=
  s ≠ "" ∧ '/' ∉ s.data ∧ s ≠ "." ∧ s ≠ ".."

instance (s : String) : Decidable (collisionSafe s) := by
  unfold collisionSafe
  infer_instance

/-- What `ToS3Prefix` writes in front of `v1/<namespace>/<clusterName>`, as a
function of the bytes of `s3Prefix`: nothing for the empty prefix, else the
buffer that the loop of `path.Clean` has filled when it is through with
`s3Prefix`, and a slash if one is needed. -/
def basePrefix : List Char → List Char
  | [] => []
  | c :: b1 =>
    if c = '/' then path.addSlash true (path.cleanRun true b1 ['/'] 1).1
    else path.addSlash false (path.cleanRun false (c :: b1) [] 0).1

end backupapi

namespace apierrors

/-! API error classification -/

/-- The reason string `metav1.StatusReasonConflict`. -/
def StatusReasonConflict : String := "Conflict"

/-- The function `apierrors.IsConflict`: the error is an API status error whose
reason is `Conflict`. -/
def IsConflict : GoError → Bool
  | GoError.status reason _ => reason == StatusReasonConflict
  | _ => false

end apierrors

namespace retryutil

/-! The retry loop -/

/-- Modelled from the spec: the rounds of `retryutil.Retry`, which is not in the
files at hand, with `n` attempts left: run the condition function on the state
it closes over; an error aborts the loop with that error, `done` ends it with
nil, otherwise the next attempt follows; with no attempt left the error
indicates retry exhaustion. -/
def retryLoop {α : Type} (maxRetries : Int) (f : α → (Bool × Option GoError) × α) :
    Nat → α → Option GoError × α
  | 0, s => (some (GoError.retry maxRetries), s)
  | n + 1, s =>
    match f s with
    | ((_, some err), s1) => (some err, s1)
    | ((true, none), s1) => (none, s1)
    | ((false, none), s1) => retryLoop maxRetries f n s1

/-- Modelled from the spec: `retryutil.Retry(interval, maxRetries, f)` is not in
the files at hand. Following the spec of the update loop: up to `maxRetries`
attempts separated by a fixed delay; an attempt that reports success ends the
loop with nil; an attempt that reports an error aborts the loop with that
error; when all `maxRetries` attempts are used up the error indicates retry
exhaustion. The condition function `f` is a closure over mutable variables,
given here as a function on the state `α` it closes over. The delay `interval`
has no effect on the result. -/
def Retry {α : Type} (interval : Nat) (maxRetries : Int)
    (f : α → (Bool × Option GoError) × α) (s : α) : Option GoError × α :=
  let _ := interval
  retryLoop maxRetries f maxRetries.toNat s

end retryutil

namespace e2eutil

/-! `test/e2e/e2eutil/crd_util.go` -/

/-- The struct `BackupStatus` of `backup.go`. The `float64` size is given as a
rational number; the update loop never computes with it. -/
structure BackupStatus where
  CreationTime : String
  Size : ℚ
  Revision : Int
  Version : String
  TimeTookInSecond : Int
  deriving DecidableEq

/-- The struct `BackupServiceStatus` of `backup.go`. -/
structure BackupServiceStatus where
  RecentBackup : Option BackupStatus
  Backups : Int
  BackupSize : ℚ
  deriving DecidableEq

/-- Modelled from the spec: the type `api.EtcdCluster` is declared outside the
files at hand. The spec describes the cluster resource as: the identity
(namespace, name), a version token assigned by the store on every successful
write, a desired spec that includes the backup policy, and an observed status
that includes the backup service status. -/
structure EtcdCluster where
  Name : String
  Namespace : String
  ResourceVersion : String
  Backup : Option v1beta2.BackupPolicy
  BackupServiceStatus : Option BackupServiceStatus
  deriving DecidableEq

/-- The value `&api.EtcdCluster{}`: every field has its zero value. -/
def EtcdCluster.zero : EtcdCluster :=
  { Name := "", Namespace := "", ResourceVersion := "", Backup := none,
    BackupServiceStatus := none }

/-- The type `k8sutil.EtcdClusterCRUpdateFunc`, `func(*api.EtcdCluster)`: it
edits the fetched copy in place, given here as the function from the copy
before to the copy after. -/
abbrev EtcdClusterCRUpdateFunc := EtcdCluster → EtcdCluster

/-- The part of the interface `client.EtcdClusterCR` that the update loop
calls, over a store with states `σ`; the interface is declared outside the
files at hand and every theorem takes the store as a parameter. `Get st namespace name` yields the fetched
resource or an error; `Update st cl` yields both return values of the Go
method, the resource pointer (possibly nil) and the error, since the caller
stores the pointer whatever the error is. A successful `Get` returns a non-nil
resource. -/
structure EtcdClusterCR (σ : Type) where
  Get : σ → String → String → Except GoError EtcdCluster × σ
  Update : σ → EtcdCluster → (Option EtcdCluster × Option GoError) × σ

/-- The closure passed to `retryutil.Retry` in `AtomicUpdateClusterCR`. It
closes over the variable `result` and talks to the store, so its state is the
pair of `result` and the store state. -/
def updateAttempt {σ : Type} (crClient : EtcdClusterCR σ) (name ns : String)
    (updateFunc : EtcdClusterCRUpdateFunc) :
    Option EtcdCluster × σ → (Bool × Option GoError) × (Option EtcdCluster × σ)
  | (result, st) =>
    match crClient.Get st ns name with
    | (Except.error err, st1) => ((false, some err), (result, st1))
    | (Except.ok etcdCluster, st1) =>
      match crClient.Update st1 (updateFunc etcdCluster) with
      | ((result1, some err), st2) =>
        if apierrors.IsConflict err = true then ((false, none), (result1, st2))
        else ((false, some err), (result1, st2))
      | ((result1, none), st2) => ((true, none), (result1, st2))

/-- The function `AtomicUpdateClusterCR(crClient, name, namespace, maxRetries,
updateFunc)`, run on the store state `st`: the returned resource pointer, the
returned error and the store state afterwards. -/
def AtomicUpdateClusterCR {σ : Type} (crClient : EtcdClusterCR σ) (name ns : String)
    (maxRetries : Int) (updateFunc : EtcdClusterCRUpdateFunc) (st : σ) :
    (Option EtcdCluster × Option GoError) × σ :=
  let r := retryutil.Retry 1000000000 maxRetries
    (updateAttempt crClient name ns updateFunc) (some EtcdCluster.zero, st)
  ((r.2.1, r.1), r.2.2)

/-- The function `UpdateCluster(crClient, cl, maxRetries, updateFunc)`. -/
def UpdateCluster {σ : Type} (crClient : EtcdClusterCR σ) (cl : EtcdCluster)
    (maxRetries : Int) (updateFunc : EtcdClusterCRUpdateFunc) (st : σ) :
    (Option EtcdCluster × Option GoError) × σ :=
  AtomicUpdateClusterCR crClient cl.Name cl.Namespace maxRetries updateFunc st

/-! Observing the calls made to the store -/

/-- One call made to the store, with what the store returned. -/
inductive Call where
  | get (ns name : String) (res : Except GoError EtcdCluster)
  | update (cl : EtcdCluster) (res : Option EtcdCluster) (err : Option GoError)

/-- The store `c` with a journal: it behaves as `c` and appends every call,
with its outcome, to the list kept beside the state of `c`. -/
def logged {σ : Type} (c : EtcdClusterCR σ) : EtcdClusterCR (σ × List Call) where
  Get := fun st ns name =>
    let r := c.Get st.1 ns name
    (r.1, (r.2, st.2 ++ [Call.get ns name r.1]))
  Update := fun st cl =>
    let r := c.Update st.1 cl
    (r.1, (r.2, st.2 ++ [Call.update cl r.1.1 r.1.2]))

/-- The journal of the calls that one run of `AtomicUpdateClusterCR` makes to
the store `c` from the state `st`. -/
def journal {σ : Type} (c : EtcdClusterCR σ) (name ns : String) (maxRetries : Int)
    (updateFunc : EtcdClusterCRUpdateFunc) (st : σ) : List Call :=
  (AtomicUpdateClusterCR (logged c) name ns maxRetries updateFunc (st, [])).2.2

/-- The call is a fetch. -/
def Call.isGet : Call → Bool
  | Call.get _ _ _ => true
  | Call.update _ _ _ => false

/-- The call is a write. -/
def Call.isUpdate : Call → Bool
  | Call.get _ _ _ => false
  | Call.update _ _ _ => true

/-- The call is a write that the store accepted. -/
def Call.isAccepted : Call → Bool
  | Call.update _ _ none => true
  | _ => false

/-- The error of a call that failed otherwise than by a write conflict: a
failed fetch, or a write rejected with an error that is not a conflict. -/
def Call.fatal : Call → Option GoError
  | Call.get _ _ (Except.error err) => some err
  | Call.get _ _ (Except.ok _) => none
  | Call.update _ _ (some err) => if apierrors.IsConflict err = true then none else some err
  | Call.update _ _ none => none

/-- The call belongs to an attempt that ends in a write conflict: a successful
fetch, or a write rejected with a conflict. -/
def Call.inConflictAttempt : Call → Bool
  | Call.get _ _ (Except.ok _) => true
  | Call.get _ _ (Except.error _) => false
  | Call.update _ _ (some err) => apierrors.IsConflict err
  | Call.update _ _ none => false

end e2eutil

namespace e2eutil

/-! A simulated store -/

/-- The state of the simulated store: the number of writes received so far and
the resource it holds. -/
structure SimState where
  writes : Nat
  stored : EtcdCluster

/-- A simulated store holding one resource. A fetch always succeeds and returns
the stored resource. The first `conflicts` writes are rejected with a conflict
(a concurrent writer committed first), the store returning `rejected cl` beside
the error; every later write is accepted: the written resource is stored under
a new version token and returned. -/
def simStore (conflicts : Nat) (rejected : EtcdCluster → Option EtcdCluster) :
    EtcdClusterCR SimState where
  Get := fun st _ _ => (Except.ok st.stored, st)
  Update := fun st cl =>
    if st.writes < conflicts then
      ((rejected cl, some (GoError.status "Conflict" "the object has been modified")),
        { st with writes := st.writes + 1 })
    else
      let written := { cl with ResourceVersion := st.stored.ResourceVersion ++ "+" }
      ((some written, none), { writes := st.writes + 1, stored := written })

/-- A store on which no resource exists: every fetch fails with `NotFound`,
every write likewise. -/
def emptyStore : EtcdClusterCR Unit where
  Get := fun st _ _ => (Except.error (GoError.status "NotFound" "not found"), st)
  Update := fun st _ => ((none, some (GoError.status "NotFound" "not found")), st)

/-- A sample resource: the cluster `etcd1` in the namespace `prod`. -/
def sampleCluster : EtcdCluster :=
  { Name := "etcd1", Namespace := "prod", ResourceVersion := "7", Backup := none,
    BackupServiceStatus := none }

/-- A sample transform: it attaches a backup service status that counts one
backup. -/
def attachStatus : EtcdClusterCRUpdateFunc := fun cl =>
  { cl with BackupServiceStatus := some { RecentBackup := none, Backups := 1, BackupSize := 0 } }

/-! The runs of the update loop -/

/-- The runs of the loop of `AtomicUpdateClusterCR` on the store `c`:
`Runs c name ns f m n r s tr err r1 s1` says that with `n` attempts left, the
variable `result` holding `r` and the store in state `s`, the loop makes the
calls `tr`, and ends with the error `err`, `result` holding `r1` and the store
in state `s1`. -/
inductive Runs {σ : Type} (c : EtcdClusterCR σ) (name ns : String)
    (f : EtcdClusterCRUpdateFunc) (m : Int) :
    Nat → Option EtcdCluster → σ → List Call → Option GoError → Option EtcdCluster → σ → Prop
  | exhausted (r : Option EtcdCluster) (s : σ) :
    Runs c name ns f m 0 r s [] (some (GoError.retry m)) r s
  | fetchFailed (n : Nat) (r : Option EtcdCluster) (s s1 : σ) (err : GoError)
    (hget : c.Get s ns name = (Except.error err, s1)) :
    Runs c name ns f m (n + 1) r s [Call.get ns name (Except.error err)] (some err) r s1
  | conflict (n : Nat) (r r1 r2 : Option EtcdCluster) (s s1 s2 s3 : σ) (cl : EtcdCluster)
    (err : GoError) (tr : List Call) (e : Option GoError)
    (hget : c.Get s ns name = (Except.ok cl, s1))
    (hupd : c.Update s1 (f cl) = ((r1, some err), s2))
    (hconf : apierrors.IsConflict err = true)
    (hrest : Runs c name ns f m n r1 s2 tr e r2 s3) :
    Runs c name ns f m (n + 1) r s
      (Call.get ns name (Except.ok cl) :: Call.update (f cl) r1 (some err) :: tr) e r2 s3
  | writeFailed (n : Nat) (r r1 : Option EtcdCluster) (s s1 s2 : σ) (cl : EtcdCluster)
    (err : GoError)
    (hget : c.Get s ns name = (Except.ok cl, s1))
    (hupd : c.Update s1 (f cl) = ((r1, some err), s2))
    (hconf : apierrors.IsConflict err = false) :
    Runs c name ns f m (n + 1) r s
      [Call.get ns name (Except.ok cl), Call.update (f cl) r1 (some err)] (some err) r1 s2
  | accepted (n : Nat) (r r1 : Option EtcdCluster) (s s1 s2 : σ) (cl : EtcdCluster)
    (hget : c.Get s ns name = (Except.ok cl, s1))
    (hupd : c.Update s1 (f cl) = ((r1, none), s2)) :
    Runs c name ns f m (n + 1) r s
      [Call.get ns name (Except.ok cl), Call.update (f cl) r1 none] none r1 s2

end e2eutil

/-! The type `float64` -/

/-- A value of the Go type `float64` (IEEE 754 binary64): a finite value, given
by the rational number it stands for, an infinity, or a NaN. The two zeros are
identified, as the Go comparison `==` does. The finite values that occur are the
results of `round64` and the doubles written out in the examples. -/
inductive Float64 where
  | finite (q : ℚ)
  | posInf
  | negInf
  | nan
  deriving DecidableEq

/-- Rounding of a rational to the nearest integer, ties to the even one. -/
def roundHalfEven (q : ℚ) : Int :=
  if q - ⌊q⌋ < 1 / 2 then ⌊q⌋
  else if 1 / 2 < q - ⌊q⌋ then ⌊q⌋ + 1
  else if ⌊q⌋ % 2 = 0 then ⌊q⌋
  else ⌊q⌋ + 1

/-- The rounding of an exact result to `float64`, to the nearest double with
ties to the even significand: the significand has 53 bits, so the doubles
around `q` are the multiples of `2 ^ p` with `p = floor(log2 |q|) - 52`, and not
below `-1074` (the subnormal doubles); a result of magnitude `2 ^ 1024` or more
is an overflow to the infinity of its sign. -/
def round64 (q : ℚ) : Float64 :=
  if q = 0 then Float64.finite 0
  else
    let p : Int := max (Int.log 2 |q| - 52) (-1074)
    let v : ℚ := (roundHalfEven (q / (2 : ℚ) ^ p) : ℚ) * (2 : ℚ) ^ p
    if (2 : ℚ) ^ (1024 : Int) ≤ v then Float64.posInf
    else if v ≤ -(2 : ℚ) ^ (1024 : Int) then Float64.negInf
    else Float64.finite v

/-- The negation of a `float64`. -/
def Float64.neg : Float64 → Float64
  | Float64.finite q => Float64.finite (-q)
  | Float64.posInf => Float64.negInf
  | Float64.negInf => Float64.posInf
  | Float64.nan => Float64.nan

/-- The Go addition `a + b` on `float64`: the exact sum of two finite values
rounded; an infinity absorbs finite values; opposite infinities and a NaN give
a NaN. -/
def Float64.add : Float64 → Float64 → Float64
  | Float64.finite x, Float64.finite y => round64 (x + y)
  | Float64.finite _, Float64.posInf => Float64.posInf
  | Float64.finite _, Float64.negInf => Float64.negInf
  | Float64.posInf, Float64.finite _ => Float64.posInf
  | Float64.posInf, Float64.posInf => Float64.posInf
  | Float64.negInf, Float64.finite _ => Float64.negInf
  | Float64.negInf, Float64.negInf => Float64.negInf
  | _, _ => Float64.nan

/-- The Go subtraction `a - b` on `float64`. -/
def Float64.sub (a b : Float64) : Float64 := a.add b.neg

namespace backupapi

/-! The backup status tracker -/

/-- The struct `BackupStatus` of `api.go`; the size is a `float64`. -/
structure BackupStatus where
  CreationTime : String
  Size : Float64
  Revision : Int
  Version : String
  TimeTookInSecond : Int
  deriving DecidableEq

/-- The struct `ServiceStatus` of `api.go`; the total size is a `float64`. -/
structure ServiceStatus where
  RecentBackup : Option BackupStatus
  Backups : Int
  BackupSize : Float64
  deriving DecidableEq

/-- Modelled from the spec: the backup status tracker is not in the files at
hand. Following the spec, it keeps the collection of retained backup statuses
ordered by recency (here oldest first) with the derived totals, the count and
the running total of the sizes, under the `MaxBackups` of the policy. -/
structure BackupStatusTracker where
  MaxBackups : Int
  retained : List BackupStatus
  Backups : Int
  BackupSize : Float64

/-- Modelled from the spec: the tracker before any backup is recorded. -/
def BackupStatusTracker.empty (maxBackups : Int) : BackupStatusTracker :=
  { MaxBackups := maxBackups, retained := [], Backups := 0, BackupSize := Float64.finite 0 }

/-- Modelled from the spec: the eviction of `Record`. While `MaxBackups > 0` and
the count exceeds it, the oldest record is evicted, which lowers the count by
one and the running total by the size of the evicted record, a `float64`
subtraction. -/
def BackupStatusTracker.evict (maxBackups : Int) :
    List BackupStatus → Int → Float64 → List BackupStatus × Int × Float64
  | [], count, total => ([], count, total)
  | oldest :: rest, count, total =>
    if 0 < maxBackups ∧ maxBackups < count then
      BackupStatusTracker.evict maxBackups rest (count - 1) (total.sub oldest.Size)
    else (oldest :: rest, count, total)

/-- Modelled from the spec: `Record(status)` appends the new completed backup as
the most recent, increments the count, adds its size to the running total, a
`float64` addition, and then evicts the oldest records while the count exceeds
a positive `MaxBackups`. -/
def BackupStatusTracker.Record (t : BackupStatusTracker) (status : BackupStatus) :
    BackupStatusTracker :=
  let r := BackupStatusTracker.evict t.MaxBackups (t.retained ++ [status]) (t.Backups + 1)
    (t.BackupSize.add status.Size)
  { MaxBackups := t.MaxBackups, retained := r.1, Backups := r.2.1, BackupSize := r.2.2 }

/-- Modelled from the spec: `Snapshot()` returns
`{RecentBackup, Backups, BackupSize}` of the current state. -/
def BackupStatusTracker.Snapshot (t : BackupStatusTracker) : ServiceStatus :=
  { RecentBackup := t.retained.getLast?, Backups := t.Backups, BackupSize := t.BackupSize }

/-- The exact value of a size: the rational number of a finite `float64`. -/
def sizeValue (b : BackupStatus) : ℚ :=
  match b.Size with
  | Float64.finite q => q
  | _ => 0

/-- The exact sum of the sizes of a list of backup statuses. -/
def totalSize (l : List BackupStatus) : ℚ := (l.map sizeValue).sum

/-- A sample backup status of the given size, named by its creation time; the
sizes used are whole numbers that `float64` holds exactly. -/
def sampleBackup (created : String) (size : ℚ) : BackupStatus :=
  { CreationTime := created, Size := Float64.finite size, Revision := 1, Version := "3.2.13",
    TimeTookInSecond := 1 }

/-- The addition `a + b` of two `float64` values is exact: both are finite
and the sum is not rounded. -/
def exactAdd : Float64 → Float64 → Prop
  | Float64.finite x, Float64.finite y => round64 (x + y) = Float64.finite (x + y)
  | _, _ => False

/-- The subtraction `a - b` of two `float64` values is exact. -/
def exactSub : Float64 → Float64 → Prop
  | Float64.finite x, Float64.finite y => round64 (x - y) = Float64.finite (x - y)
  | _, _ => False

/-- Every subtraction that the eviction makes is exact. -/
def evictExact (maxBackups : Int) : List BackupStatus → Int → Float64 → Prop
  | [], _, _ => True
  | oldest :: rest, count, total =>
    if 0 < maxBackups ∧ maxBackups < count then
      exactSub total oldest.Size ∧
        evictExact maxBackups rest (count - 1) (total.sub oldest.Size)
    else True

/-- Every addition and subtraction that `Record` makes on the running total is
exact. -/
def recordExact (t : BackupStatusTracker) (status : BackupStatus) : Prop :=
  exactAdd t.BackupSize status.Size ∧
    evictExact t.MaxBackups (t.retained ++ [status]) (t.Backups + 1)
      (t.BackupSize.add status.Size)

/-- Every addition and subtraction on the running total is exact while the
records `recs` are recorded one after the other. -/
def runExact : BackupStatusTracker → List BackupStatus → Prop
  | _, [] => True
  | t, b :: bs => recordExact t b ∧ runExact (t.Record b) bs

/-- The invariant of the tracker after the records `hist` under `MaxBackups = k`:
the last `k` records are retained and the count is their number. -/
def trackerInv (k : Nat) (t : BackupStatusTracker) (hist : List BackupStatus) : Prop :=
  t.MaxBackups = (k : Int) ∧ t.retained = hist.drop (hist.length - k) ∧
    t.Backups = (t.retained.length : Int)

/-- The running total is the exact sum of the sizes retained, all finite. -/
def sizeInv (t : BackupStatusTracker) : Prop :=
  t.BackupSize = Float64.finite (totalSize t.retained) ∧
    ∀ b ∈ t.retained, b.Size = Float64.finite (sizeValue b)

end backupapi

namespace e2eutil

/-! The deletion waiter -/

/-- Modelled from the spec: the final states of the state machine
`Polling -> {Confirmed, TimedOut, Errored}` of `WaitBackupDeleted`. `Confirmed`
is the nil error, `TimedOut` the timeout error, `Errored` the error of a
check. -/
inductive WaitOutcome where
  | Confirmed
  | TimedOut
  | Errored (err : GoError)
  deriving DecidableEq

/-- Modelled from the spec: the polling of `WaitBackupDeleted`, with `n` poll
cycles left before the deadline and `i` cycles made. The argument `check i` is
what the two checks report in cycle `i`: an error, or whether nothing remains
of the dependent resources and whether nothing remains of the backup
artifacts. An error ends the wait in `Errored`; both checks reporting empty in
the same cycle ends it in `Confirmed`; otherwise the next cycle follows; with
the deadline elapsed the wait ends in `TimedOut`. The result carries the number
of poll cycles made. -/
def waitLoop (check : Nat → Except GoError (Bool × Bool)) : Nat → Nat → WaitOutcome × Nat
  | 0, i => (WaitOutcome.TimedOut, i)
  | n + 1, i =>
    match check i with
    | Except.error err => (WaitOutcome.Errored err, i + 1)
    | Except.ok (true, true) => (WaitOutcome.Confirmed, i + 1)
    | Except.ok _ => waitLoop check n (i + 1)

/-- Modelled from the spec: `WaitBackupDeleted`, which is not in the files at
hand (only its caller `DeleteClusterAndBackup` is). Time is counted in poll
cycles: `deadline` is the number of polls that the deadline covers. -/
def WaitBackupDeleted (deadline : Nat) (check : Nat → Except GoError (Bool × Bool)) :
    WaitOutcome × Nat :=
  waitLoop check deadline 0

end e2eutil

/-! Theorems on the backup policy validation -/

namespace v1beta2

/-- C1: `Validate` returns a non-nil error exactly when `MaxBackups < 0`, or the
storage type is `PersistentVolume` and the PV source is nil or has
`VolumeSizeInMB <= 0`; in every other case it returns nil. -/
theorem Validate_error_iff (p : BackupPolicy) :
    p.Validate ≠ none ↔
      (p.MaxBackups < 0 ∨
        (p.StorageType = "PersistentVolume" ∧
          (p.PV = none ∨ ∃ pv, p.PV = some pv ∧ pv.VolumeSizeInMB ≤ 0))) := by
  unfold BackupPolicy.Validate BackupStorageTypePersistentVolume
  by_cases h1 : p.MaxBackups < 0
  · simp [h1]
  · by_cases h2 : p.StorageType = "PersistentVolume"
    · cases hpv : p.PV with
      | none => simp [h1, h2, hpv]
      | some pv =>
        by_cases h3 : pv.VolumeSizeInMB ≤ 0
        · simp [h1, h2, hpv, h3]
        · simp [h1, h2, hpv, h3]
    · simp [h1, h2]

/-- C2, as stated, fails: the policy with storage type `PersistentVolume`, no
PV source and `MaxBackups = -1` gets the `MaxBackups` error, not
`errPVZeroSize`. -/
theorem Validate_pv_absent_negative_max_not_zero_size :
    BackupPolicy.Validate
        { PV := none, S3 := none, ABS := none, Pod := none,
          StorageType := "PersistentVolume", BackupIntervalInSecond := 1800,
          MaxBackups := -1, AutoDelete := false }
        = some (GoError.errorString "MaxBackups value should be >= 0") ∧
      BackupPolicy.Validate
        { PV := none, S3 := none, ABS := none, Pod := none,
          StorageType := "PersistentVolume", BackupIntervalInSecond := 1800,
          MaxBackups := -1, AutoDelete := false }
        ≠ some errPVZeroSize :=
  ⟨by decide, by decide⟩

/-- C2, amended: for a policy with `MaxBackups >= 0` whose storage type is
`PersistentVolume` and whose PV source is nil or has `VolumeSizeInMB <= 0`,
`Validate` returns `errPVZeroSize`, whose message is "PV backup should not have
0 size volume" and which differs from the `MaxBackups` error; every policy with
`MaxBackups < 0` gets the `MaxBackups` error instead. -/
theorem Validate_pv_zero_size (p : BackupPolicy) (hmax : 0 ≤ p.MaxBackups)
    (hty : p.StorageType = "PersistentVolume")
    (hpv : p.PV = none ∨ ∃ pv, p.PV = some pv ∧ pv.VolumeSizeInMB ≤ 0) :
    p.Validate = some errPVZeroSize ∧
      errPVZeroSize = GoError.errorString "PV backup should not have 0 size volume" ∧
      errPVZeroSize ≠ GoError.errorString "MaxBackups value should be >= 0" ∧
      ∀ q : BackupPolicy, q.MaxBackups < 0 →
        q.Validate = some (GoError.errorString "MaxBackups value should be >= 0") := by
  refine ⟨?_, rfl, by decide, ?_⟩
  · unfold BackupPolicy.Validate BackupStorageTypePersistentVolume
    have h1 : ¬ p.MaxBackups < 0 := not_lt.mpr hmax
    rcases hpv with hnone | ⟨pv, hsome, hsize⟩
    · simp [h1, hty, hnone]
    · simp [h1, hty, hsome, hsize]
  · intro q hq
    unfold BackupPolicy.Validate
    simp [hq]

/-- Witness of `Validate_pv_zero_size`: storage type `PersistentVolume` with a
nil PV source. -/
theorem Validate_pv_zero_size_witness :
    BackupPolicy.Validate
        { PV := none, S3 := none, ABS := none, Pod := none,
          StorageType := "PersistentVolume", BackupIntervalInSecond := 0,
          MaxBackups := 0, AutoDelete := false } = some errPVZeroSize ∧
      errPVZeroSize = GoError.errorString "PV backup should not have 0 size volume" ∧
      errPVZeroSize ≠ GoError.errorString "MaxBackups value should be >= 0" ∧
      ∀ q : BackupPolicy, q.MaxBackups < 0 →
        q.Validate = some (GoError.errorString "MaxBackups value should be >= 0") :=
  Validate_pv_zero_size
    { PV := none, S3 := none, ABS := none, Pod := none,
      StorageType := "PersistentVolume", BackupIntervalInSecond := 0,
      MaxBackups := 0, AutoDelete := false }
    (by decide) rfl (Or.inl rfl)

/-- C3: with `MaxBackups < 0`, whatever the storage type and source, `Validate`
returns the error "MaxBackups value should be >= 0", whose message contains
"MaxBackups" (the value is neither accepted nor replaced); with
`MaxBackups = 0` the result is nil or `errPVZeroSize`, whose message does not
contain "MaxBackups". -/
theorem Validate_max_backups (p : BackupPolicy) :
    (p.MaxBackups < 0 →
      ∃ msg, p.Validate = some (GoError.errorString msg) ∧
        msg = "MaxBackups value should be >= 0" ∧ "MaxBackups".data <:+: msg.data) ∧
    (p.MaxBackups = 0 →
      (p.Validate = none ∨ p.Validate = some errPVZeroSize) ∧
        ∃ msg, errPVZeroSize = GoError.errorString msg ∧ ¬ "MaxBackups".data <:+: msg.data) := by
  constructor
  · intro h
    refine ⟨"MaxBackups value should be >= 0", ?_, rfl, ?_⟩
    · unfold BackupPolicy.Validate
      simp [h]
    · exact ⟨[], " value should be >= 0".data, rfl⟩
  · intro h
    constructor
    · unfold BackupPolicy.Validate
      by_cases h2 : p.StorageType = BackupStorageTypePersistentVolume
      · cases hpv : p.PV with
        | none => simp [h, h2, hpv]
        | some pv =>
          by_cases h3 : pv.VolumeSizeInMB ≤ 0
          · simp [h, h2, hpv, h3]
          · simp [h, h2, hpv, h3]
      · simp [h, h2]
    · exact ⟨"PV backup should not have 0 size volume", rfl, by decide⟩

/-- Witness of `Validate_max_backups`: the policy `{MaxBackups: -1}`, and the
same policy with `MaxBackups = 0`. -/
theorem Validate_max_backups_witness :
    (∃ msg, BackupPolicy.Validate
        { PV := none, S3 := none, ABS := none, Pod := none, StorageType := "",
          BackupIntervalInSecond := 0, MaxBackups := -1, AutoDelete := false }
          = some (GoError.errorString msg) ∧
        msg = "MaxBackups value should be >= 0" ∧ "MaxBackups".data <:+: msg.data) ∧
    BackupPolicy.Validate
        { PV := none, S3 := none, ABS := none, Pod := none, StorageType := "",
          BackupIntervalInSecond := 0, MaxBackups := 0, AutoDelete := false } = none :=
  ⟨(Validate_max_backups
      { PV := none, S3 := none, ABS := none, Pod := none, StorageType := "",
        BackupIntervalInSecond := 0, MaxBackups := -1, AutoDelete := false }).1 (by decide),
    by decide⟩

end v1beta2

/-! Theorems on the backup path scheme -/

namespace path

theorem length_dropWhile_le (p : Char → Bool) (l : List Char) :
    (l.dropWhile p).length ≤ l.length :=
  (List.dropWhile_suffix p).length_le

theorem cleanLoop_fuel (rooted : Bool) :
    ∀ (f1 f2 : Nat) (rest out : List Char) (dd : Nat), rest.length ≤ f1 → rest.length ≤ f2 →
      cleanLoop rooted f1 rest out dd = cleanLoop rooted f2 rest out dd := by
  intro f1
  induction f1 with
  | zero =>
    intro f2 rest out dd h1 _
    have hnil : rest = [] := List.length_eq_zero.mp (Nat.le_zero.mp h1)
    subst hnil
    cases f2 <;> simp [cleanLoop]
  | succ n ih =>
    intro f2 rest out dd h1 h2
    cases rest with
    | nil => cases f2 <;> simp [cleanLoop]
    | cons c r1 =>
      cases f2 with
      | zero => simp at h2
      | succ m =>
        simp only [List.length_cons, Nat.add_le_add_iff_right] at h1 h2
        have hdrop1 : (r1.drop 1).length ≤ r1.length := by simp
        simp only [cleanLoop]
        by_cases hc1 : c = '/'
        · simp only [hc1, if_true]
          exact ih m _ _ _ h1 h2
        · have hd : (List.dropWhile (fun x => x != '/') (c :: r1)).length ≤ r1.length := by
            rw [List.dropWhile_cons_of_pos (by simpa using hc1)]
            exact length_dropWhile_le _ _
          split_ifs <;> exact ih m _ _ _ (by omega) (by omega)

/-- One round of the loop of `Clean`, on a rest that is not empty. -/
theorem cleanRun_cons (rooted : Bool) (c : Char) (r1 out : List Char) (dd : Nat) :
    cleanRun rooted (c :: r1) out dd =
      if c = '/' then cleanRun rooted r1 out dd
      else if c = '.' ∧ atSep r1 = true then cleanRun rooted r1 out dd
      else if c = '.' ∧ dotThenSep r1 = true then
        if dd < out.length then
          cleanRun rooted (r1.drop 1) (out.take (backtrack out dd (out.length - 1))) dd
        else if rooted = false then
          cleanRun rooted (r1.drop 1)
            ((if 0 < out.length then out ++ ['/'] else out) ++ ['.', '.'])
            ((if 0 < out.length then out ++ ['/'] else out) ++ ['.', '.']).length
        else cleanRun rooted (r1.drop 1) out dd
      else
        cleanRun rooted ((c :: r1).dropWhile (fun x => x != '/'))
          (addSlash rooted out ++ (c :: r1).takeWhile (fun x => x != '/')) dd := by
  have hdrop1 : (r1.drop 1).length ≤ r1.length := by simp
  simp only [cleanRun, List.length_cons, cleanLoop]
  by_cases hc1 : c = '/'
  · simp only [hc1, if_true]
  · have hd : (List.dropWhile (fun x => x != '/') (c :: r1)).length ≤ r1.length := by
      rw [List.dropWhile_cons_of_pos (by simpa using hc1)]
      exact length_dropWhile_le _ _
    split_ifs <;> exact cleanLoop_fuel rooted _ _ _ _ _ (by omega) (le_refl _)

theorem cleanRun_nil (rooted : Bool) (out : List Char) (dd : Nat) :
    cleanRun rooted [] out dd = (out, dd) := by
  simp [cleanRun, cleanLoop]

theorem atSep_append_slash (l ys : List Char) : atSep (l ++ '/' :: ys) = atSep l := by
  cases l <;> simp [atSep]

theorem dotThenSep_append_slash (l ys : List Char) :
    dotThenSep (l ++ '/' :: ys) = dotThenSep l := by
  cases l with
  | nil => simp [dotThenSep]
  | cons d r2 => simp [dotThenSep, atSep_append_slash]

theorem takeWhile_append_slash (l ys : List Char) :
    (l ++ '/' :: ys).takeWhile (fun x => x != '/') = l.takeWhile (fun x => x != '/') := by
  induction l with
  | nil => simp
  | cons c l ih =>
    by_cases hc : c = '/'
    · simp [hc]
    · simp [List.takeWhile_cons, hc, ih]

theorem dropWhile_append_slash (l ys : List Char) :
    (l ++ '/' :: ys).dropWhile (fun x => x != '/') =
      l.dropWhile (fun x => x != '/') ++ '/' :: ys := by
  induction l with
  | nil => simp
  | cons c l ih =>
    by_cases hc : c = '/'
    · simp [hc]
    · simp [List.dropWhile_cons, hc, ih]

/-- The loop of `Clean` on a path with a slash in it: the part before the slash
is processed first, the rest from the state reached then. -/
theorem cleanRun_append_slash (rooted : Bool) :
    ∀ (n : Nat) (xs ys out : List Char) (dd : Nat), xs.length ≤ n →
      cleanRun rooted (xs ++ '/' :: ys) out dd =
        cleanRun rooted ('/' :: ys) (cleanRun rooted xs out dd).1 (cleanRun rooted xs out dd).2 := by
  intro n
  induction n with
  | zero =>
    intro xs ys out dd h
    have hnil : xs = [] := List.length_eq_zero.mp (Nat.le_zero.mp h)
    subst hnil
    simp [cleanRun_nil]
  | succ n ih =>
    intro xs ys out dd h
    cases xs with
    | nil => simp [cleanRun_nil]
    | cons c r1 =>
      simp only [List.length_cons, Nat.add_le_add_iff_right] at h
      have hdrop1 : (r1.drop 1).length ≤ n := by
        simp
        omega
      rw [List.cons_append, cleanRun_cons rooted c (r1 ++ '/' :: ys), cleanRun_cons rooted c r1]
      simp only [atSep_append_slash, dotThenSep_append_slash]
      by_cases hc1 : c = '/'
      · simp only [hc1, if_true]
        exact ih r1 ys out dd h
      · simp only [hc1, if_false]
        by_cases hc2 : c = '.' ∧ atSep r1 = true
        · simp only [hc2, and_self, if_true]
          exact ih r1 ys out dd h
        · simp only [hc2, if_false]
          by_cases hc3 : c = '.' ∧ dotThenSep r1 = true
          · have hne : r1 ≠ [] := by
              intro h0
              rw [h0] at hc3
              simp [dotThenSep] at hc3
            have hdrop : (r1 ++ '/' :: ys).drop 1 = r1.drop 1 ++ '/' :: ys := by
              cases r1 with
              | nil => exact absurd rfl hne
              | cons d r2 => simp
            simp only [hc3, and_self, if_true, hdrop]
            split_ifs <;> exact ih _ ys _ _ hdrop1
          · simp only [hc3, if_false]
            have hd : (List.dropWhile (fun x => x != '/') (c :: r1)).length ≤ n := by
              rw [List.dropWhile_cons_of_pos (by simpa using hc1)]
              exact le_trans (length_dropWhile_le _ _) h
            rw [← List.cons_append, takeWhile_append_slash, dropWhile_append_slash]
            exact ih _ ys _ _ hd

/-- The loop of `Clean` copies a plain path element, after a slash if one is
needed. -/
theorem cleanRun_seg (rooted : Bool) (seg rest out : List Char) (dd : Nat)
    (hseg : plainSeg seg) (hrest : atSep rest = true) :
    cleanRun rooted (seg ++ rest) out dd = cleanRun rooted rest (addSlash rooted out ++ seg) dd := by
  obtain ⟨hne, hslash, hdot, hdotdot⟩ := hseg
  cases seg with
  | nil => exact absurd rfl hne
  | cons c s1 =>
    have hc1 : c ≠ '/' := by
      intro h
      exact hslash (by simp [h])
    have hs1 : ∀ x ∈ s1, x ≠ '/' := by
      intro x hx h
      exact hslash (List.mem_cons_of_mem _ (h ▸ hx))
    have hc2 : ¬ (c = '.' ∧ atSep (s1 ++ rest) = true) := by
      rintro ⟨hc, hsep⟩
      cases s1 with
      | nil => exact hdot (by simp [hc])
      | cons d s2 =>
        simp [atSep] at hsep
        exact hs1 d (by simp) hsep
    have hc3 : ¬ (c = '.' ∧ dotThenSep (s1 ++ rest) = true) := by
      rintro ⟨hc, hsep⟩
      cases s1 with
      | nil =>
        cases rest with
        | nil => simp [dotThenSep] at hsep
        | cons e rest =>
          simp [atSep] at hrest
          simp [dotThenSep, hrest] at hsep
      | cons d s2 =>
        simp [dotThenSep] at hsep
        obtain ⟨hd, hsep2⟩ := hsep
        cases s2 with
        | nil => exact hdotdot (by simp [hc, hd])
        | cons e s3 =>
          simp [atSep] at hsep2
          exact hs1 e (by simp) hsep2
    have hall : ∀ x ∈ c :: s1, (fun x => x != '/') x = true := by
      intro x hx
      simp at hx
      rcases hx with hx | hx
      · simpa [hx] using hc1
      · simpa using hs1 x hx
    have hrest2 : rest.takeWhile (fun x => x != '/') = [] ∧
        rest.dropWhile (fun x => x != '/') = rest := by
      cases rest with
      | nil => simp
      | cons e rest =>
        simp [atSep] at hrest
        simp [hrest]
    rw [List.cons_append, cleanRun_cons]
    simp only [hc1, hc2, hc3, if_false]
    rw [← List.cons_append, List.takeWhile_append_of_pos hall, List.dropWhile_append_of_pos hall,
      hrest2.1, hrest2.2, List.append_nil]

theorem addSlash_of_two_le (rooted : Bool) (out : List Char) (h : 2 ≤ out.length) :
    addSlash rooted out = out ++ ['/'] := by
  unfold addSlash
  have h1 : out.length ≠ 1 := by omega
  have h0 : out.length ≠ 0 := by omega
  cases rooted <;> simp [h1, h0]

theorem plainSeg_v1 : plainSeg ['v', '1'] := by
  refine ⟨by simp, by decide, by simp, by simp⟩

/-- The loop of `Clean` on `xs/v1/ns/name` for plain elements `ns` and `name`:
what `xs` leaves in the buffer, a slash if one is needed, and `v1/ns/name`
unchanged. -/
theorem cleanRun_suffix (rooted : Bool) (xs out : List Char) (dd : Nat) (ns name : List Char)
    (hns : plainSeg ns) (hname : plainSeg name) :
    (cleanRun rooted (xs ++ '/' :: 'v' :: '1' :: '/' :: (ns ++ '/' :: name)) out dd).1 =
      addSlash rooted (cleanRun rooted xs out dd).1 ++
        'v' :: '1' :: '/' :: (ns ++ '/' :: name) := by
  rw [cleanRun_append_slash rooted xs.length xs _ out dd (le_refl _)]
  generalize (cleanRun rooted xs out dd).1 = o
  generalize (cleanRun rooted xs out dd).2 = d
  rw [cleanRun_cons]
  simp only [if_true]
  have e1 : 'v' :: '1' :: '/' :: (ns ++ '/' :: name) = ['v', '1'] ++ '/' :: (ns ++ '/' :: name) := rfl
  rw [e1, cleanRun_seg rooted ['v', '1'] _ o d plainSeg_v1 (by simp [atSep])]
  rw [cleanRun_cons]
  simp only [if_true]
  rw [cleanRun_seg rooted ns _ _ d hns (by simp [atSep])]
  rw [cleanRun_cons]
  simp only [if_true]
  have e2 : name = name ++ [] := by simp
  rw [e2, cleanRun_seg rooted name [] _ d hname (by simp [atSep]), cleanRun_nil]
  rw [addSlash_of_two_le rooted (addSlash rooted o ++ ['v', '1']) (by simp),
    addSlash_of_two_le rooted _ (by simp; omega)]
  simp

end path

namespace backupapi

theorem plainSeg_of_collisionSafe {s : String} (h : collisionSafe s) : path.plainSeg s.data := by
  obtain ⟨h1, h2, h3, h4⟩ := h
  refine ⟨?_, h2, ?_, ?_⟩
  · intro h
    exact h1 (String.ext h)
  · intro h
    exact h3 (String.ext h)
  · intro h
    exact h4 (String.ext h)

theorem joinSlash_data (base ns name : String) :
    (path.joinSlash [base, S3V1, ns, name]).data =
      base.data ++ '/' :: 'v' :: '1' :: '/' :: (ns.data ++ '/' :: name.data) := by
  simp [path.joinSlash, S3V1, String.data_append]

theorem joinSlash_data_tail (ns name : String) :
    (path.joinSlash [S3V1, ns, name]).data =
      'v' :: '1' :: '/' :: (ns.data ++ '/' :: name.data) := by
  simp [path.joinSlash, S3V1, String.data_append]

/-- The bytes of `ToS3Prefix(base, ns, name)` for collision-safe `ns` and
`name`: a part that depends on `base` alone, then `v1/ns/name` unchanged. -/
theorem ToS3Prefix_data (base ns name : String) (hns : collisionSafe ns)
    (hname : collisionSafe name) :
    (ToS3Prefix base ns name).data =
      basePrefix base.data ++ 'v' :: '1' :: '/' :: (ns.data ++ '/' :: name.data) := by
  have pns := plainSeg_of_collisionSafe hns
  have pname := plainSeg_of_collisionSafe hname
  have hv1 : S3V1 ≠ "" := by decide
  by_cases hb : base = ""
  · subst hb
    have h0 := path.cleanRun_suffix false [] [] 0 ns.data name.data pns pname
    rw [List.nil_append, path.cleanRun_cons] at h0
    simp only [if_true, path.cleanRun_nil] at h0
    simp only [ToS3Prefix, path.Join, hv1, ne_eq, not_true_eq_false, not_false_eq_true,
      if_true, if_false, path.Clean, joinSlash_data_tail, path.cleanChars]
    simp only [show (('v' : Char) == '/') = false from by decide, Bool.false_eq_true, if_false, h0]
    simp [basePrefix, path.addSlash]
  · have hdata : base.data ≠ [] := fun h => hb (String.ext h)
    simp only [ToS3Prefix, path.Join, hb, ne_eq, not_false_eq_true, if_true, path.Clean,
      joinSlash_data]
    cases hcs : base.data with
    | nil => exact absurd hcs hdata
    | cons c b1 =>
      by_cases hc : c = '/'
      · have h1 := path.cleanRun_suffix true b1 ['/'] 1 ns.data name.data pns pname
        simp only [List.cons_append, path.cleanChars, hc, beq_self_eq_true, if_true, h1,
          basePrefix]
        simp
      · have h1 := path.cleanRun_suffix false (c :: b1) [] 0 ns.data name.data pns pname
        have hbeq : (c == '/') = false := by simpa using hc
        simp only [List.cons_append] at h1
        simp only [List.cons_append, path.cleanChars, hbeq, Bool.false_eq_true, if_false, h1,
          basePrefix, hc]
        simp

/-- For a clean `base` other than `.` and `/`, the part that `ToS3Prefix` writes
in front of `v1/<namespace>/<clusterName>` is `base` and a slash. -/
theorem basePrefix_of_clean (base : String) (hclean : path.Clean base = base)
    (hdot : base ≠ ".") (hroot : base ≠ "/") :
    basePrefix base.data = base.data ++ ['/'] := by
  have hc : path.cleanChars base.data = base.data := by
    have := congrArg String.data hclean
    simpa [path.Clean] using this
  cases hcs : base.data with
  | nil =>
    rw [hcs] at hc
    simp [path.cleanChars] at hc
  | cons c b1 =>
    rw [hcs] at hc
    have hdot1 : c :: b1 ≠ ['.'] := by
      intro h
      exact hdot (String.ext (by rw [hcs, h]))
    by_cases hcr : c = '/'
    · have hb1 : b1 ≠ [] := by
        intro h
        exact hroot (String.ext (by rw [hcs, hcr, h]))
      simp only [path.cleanChars, hcr, beq_self_eq_true, if_true] at hc
      split_ifs at hc with h0
      · rw [hcr] at hdot1
        exact absurd hc.symm hdot1
      · simp only [basePrefix, hcr, if_true, hc, path.addSlash]
        have : b1.length ≠ 0 := fun h => hb1 (List.length_eq_zero.mp h)
        simp [this]
    · have hbeq : (c == '/') = false := by simpa using hcr
      simp only [path.cleanChars, hbeq, Bool.false_eq_true, if_false] at hc
      split_ifs at hc with h0
      · exact absurd hc.symm hdot1
      · simp only [basePrefix, hcr, if_false, hc, path.addSlash]
        simp

/-- Two pairs of slash-free lists joined by a slash agree only if the pairs
agree. -/
theorem slash_join_inj (a1 b1 a2 b2 : List Char) (h1 : '/' ∉ a1) (h2 : '/' ∉ a2)
    (h : a1 ++ '/' :: b1 = a2 ++ '/' :: b2) : a1 = a2 ∧ b1 = b2 := by
  have hp : ∀ (a : List Char), '/' ∉ a → a.takeWhile (fun x => x != '/') = a := by
    intro a ha
    rw [List.takeWhile_eq_self_iff]
    intro x hx
    have : x ≠ '/' := fun hx1 => ha (hx1 ▸ hx)
    simpa using this
  have ht := congrArg (List.takeWhile (fun x => x != '/')) h
  rw [path.takeWhile_append_slash, path.takeWhile_append_slash, hp a1 h1, hp a2 h2] at ht
  subst ht
  have := List.append_cancel_left h
  simp at this
  exact ⟨rfl, this⟩

/-- `ToS3Prefix` keeps collision-safe pairs apart under one base. -/
theorem ToS3Prefix_inj (base ns1 name1 ns2 name2 : String)
    (hns1 : collisionSafe ns1) (hname1 : collisionSafe name1)
    (hns2 : collisionSafe ns2) (hname2 : collisionSafe name2)
    (h : ToS3Prefix base ns1 name1 = ToS3Prefix base ns2 name2) :
    ns1 = ns2 ∧ name1 = name2 := by
  have hd := congrArg String.data h
  rw [ToS3Prefix_data base ns1 name1 hns1 hname1, ToS3Prefix_data base ns2 name2 hns2 hname2] at hd
  have hd1 := List.append_cancel_left hd
  simp only [List.cons.injEq, true_and] at hd1
  obtain ⟨ha, hb⟩ := slash_join_inj _ _ _ _ hns1.2.1 hns2.2.1 hd1
  exact ⟨String.ext ha, String.ext hb⟩

/-- C4, as stated, fails: with an empty base the result has no leading slash,
`ToS3Prefix("", "prod", "etcd1")` is `v1/prod/etcd1` and not `/v1/prod/etcd1`;
and an empty namespace is dropped, `ToS3Prefix("b", "", "etcd1")` is
`b/v1/etcd1` and not `b/v1//etcd1`. -/
theorem ToS3Prefix_empty_base_not_concat :
    ToS3Prefix "" "prod" "etcd1" = "v1/prod/etcd1" ∧
      ToS3Prefix "" "prod" "etcd1" ≠ "" ++ "/v1/" ++ "prod" ++ "/" ++ "etcd1" ∧
      ToS3Prefix "b" "" "etcd1" = "b/v1/etcd1" ∧
      ToS3Prefix "b" "" "etcd1" ≠ "b" ++ "/v1/" ++ "" ++ "/" ++ "etcd1" := by
  decide

/-- C4, amended: when `base` is a clean path (`path.Clean(base) == base`) other
than `.` and `/`, and `ns` and `name` are not empty, hold no slash and are
neither `.` nor `..`, then `ToS3Prefix(base, ns, name)` is the string
`base + "/v1/" + ns + "/" + name`. -/
theorem ToS3Prefix_eq_concat (base ns name : String) (hclean : path.Clean base = base)
    (hdot : base ≠ ".") (hroot : base ≠ "/") (hns : collisionSafe ns)
    (hname : collisionSafe name) :
    ToS3Prefix base ns name = base ++ "/v1/" ++ ns ++ "/" ++ name := by
  apply String.ext
  rw [ToS3Prefix_data base ns name hns hname, basePrefix_of_clean base hclean hdot hroot]
  simp [String.data_append]

/-- Witness of `ToS3Prefix_eq_concat`: the base `bucket/backups`, the namespace
`prod` and the cluster `etcd1` give `bucket/backups/v1/prod/etcd1`. -/
theorem ToS3Prefix_eq_concat_witness :
    path.Clean "bucket/backups" = "bucket/backups" ∧ collisionSafe "prod" ∧
      collisionSafe "etcd1" ∧
      ToS3Prefix "bucket/backups" "prod" "etcd1" =
        "bucket/backups" ++ "/v1/" ++ "prod" ++ "/" ++ "etcd1" ∧
      "bucket/backups" ++ "/v1/" ++ "prod" ++ "/" ++ "etcd1" = "bucket/backups/v1/prod/etcd1" :=
  ⟨by decide, by decide, by decide,
    ToS3Prefix_eq_concat "bucket/backups" "prod" "etcd1" (by decide) (by decide) (by decide)
      (by decide) (by decide),
    by decide⟩

/-- C5, as stated, fails: under the base `b` the distinct pairs `(a/b, c)` and
`(a, b/c)` get the same prefix `b/v1/a/b/c`, and so do `(x, .)` and
`(x/y, ..)`, which both get `b/v1/x`. -/
theorem ToS3Prefix_distinct_pairs_collide :
    (("a/b", "c") : String × String) ≠ ("a", "b/c") ∧
      ToS3Prefix "b" "a/b" "c" = ToS3Prefix "b" "a" "b/c" ∧
      (("x", ".") : String × String) ≠ ("x/y", "..") ∧
      ToS3Prefix "b" "x" "." = ToS3Prefix "b" "x/y" ".." := by
  decide

/-- C5, amended: for every base and any two distinct pairs `(ns1, name1)` and
`(ns2, name2)` whose four components are collision-safe (not empty, without a
slash, neither `.` nor `..`), the two prefixes differ. -/
theorem ToS3Prefix_distinct (base ns1 name1 ns2 name2 : String)
    (hns1 : collisionSafe ns1) (hname1 : collisionSafe name1)
    (hns2 : collisionSafe ns2) (hname2 : collisionSafe name2)
    (hne : (ns1, name1) ≠ (ns2, name2)) :
    ToS3Prefix base ns1 name1 ≠ ToS3Prefix base ns2 name2 := by
  intro h
  obtain ⟨h1, h2⟩ := ToS3Prefix_inj base ns1 name1 ns2 name2 hns1 hname1 hns2 hname2 h
  exact hne (by rw [h1, h2])

/-- Witness of `ToS3Prefix_distinct`: the clusters `etcd1` of the namespaces
`prod` and `test` under the base `bucket/backups`. -/
theorem ToS3Prefix_distinct_witness :
    ToS3Prefix "bucket/backups" "prod" "etcd1" ≠ ToS3Prefix "bucket/backups" "test" "etcd1" :=
  ToS3Prefix_distinct "bucket/backups" "prod" "etcd1" "test" "etcd1" (by decide) (by decide)
    (by decide) (by decide) (by decide)

/-- C6: for collision-safe `ns` and `name` (not empty, without a slash, neither
`.` nor `..`) and every base, `ToS3Prefix(base, ns, name)` ends with
`"v1/" + ns + "/" + name`, both identifiers unchanged, and every other
collision-safe pair gets a different prefix under the same base. -/
theorem ToS3Prefix_collision_safe (base ns name : String) (hns : collisionSafe ns)
    (hname : collisionSafe name) :
    (∃ pre : String, ToS3Prefix base ns name = pre ++ ("v1/" ++ ns ++ "/" ++ name)) ∧
      ∀ ns2 name2 : String, collisionSafe ns2 → collisionSafe name2 →
        (ns2, name2) ≠ (ns, name) → ToS3Prefix base ns2 name2 ≠ ToS3Prefix base ns name := by
  constructor
  · refine ⟨⟨basePrefix base.data⟩, String.ext ?_⟩
    rw [ToS3Prefix_data base ns name hns hname]
    simp [String.data_append]
  · intro ns2 name2 hns2 hname2 hne h
    obtain ⟨h1, h2⟩ := ToS3Prefix_inj base ns2 name2 ns name hns2 hname2 hns hname h
    exact hne (by rw [h1, h2])

/-- Witness of `ToS3Prefix_collision_safe`: under the base `/a/../x/` the pair
`(prod, etcd1)` gets `/x/v1/prod/etcd1`, which ends with `v1/prod/etcd1`. -/
theorem ToS3Prefix_collision_safe_witness :
    ToS3Prefix "/a/../x/" "prod" "etcd1" = "/x/v1/prod/etcd1" ∧
      (∃ pre : String,
        ToS3Prefix "/a/../x/" "prod" "etcd1" = pre ++ ("v1/" ++ "prod" ++ "/" ++ "etcd1")) ∧
      ∀ ns2 name2 : String, collisionSafe ns2 → collisionSafe name2 →
        (ns2, name2) ≠ ("prod", "etcd1") →
        ToS3Prefix "/a/../x/" ns2 name2 ≠ ToS3Prefix "/a/../x/" "prod" "etcd1" :=
  ⟨by decide,
    ToS3Prefix_collision_safe "/a/../x/" "prod" "etcd1" (by decide) (by decide)⟩

end backupapi

/-! Theorems on the update loop -/

namespace e2eutil

/-- The loop on the store `c` and the loop on the store with a journal, both
follow one run: same error, same `result`, same store state, and the journal
grows by the calls of the run. -/
theorem retryLoop_runs {σ : Type} (c : EtcdClusterCR σ) (name ns : String)
    (f : EtcdClusterCRUpdateFunc) (m : Int) (n : Nat) :
    ∀ (r : Option EtcdCluster) (s : σ), ∃ tr e r1 s1,
      Runs c name ns f m n r s tr e r1 s1 ∧
      retryutil.retryLoop m (updateAttempt c name ns f) n (r, s) = (e, (r1, s1)) ∧
      ∀ log, retryutil.retryLoop m (updateAttempt (logged c) name ns f) n (r, (s, log))
        = (e, (r1, (s1, log ++ tr))) := by
  induction n with
  | zero =>
    intro r s
    exact ⟨[], _, r, s, Runs.exhausted r s, rfl, fun log => by simp [retryutil.retryLoop]⟩
  | succ n ih =>
    intro r s
    rcases hget : c.Get s ns name with ⟨g, s1⟩
    cases g with
    | error err =>
      refine ⟨_, _, _, _, Runs.fetchFailed n r s s1 err hget, ?_, fun log => ?_⟩
      · simp [retryutil.retryLoop, updateAttempt, hget]
      · simp [retryutil.retryLoop, updateAttempt, logged, hget]
    | ok cl =>
      rcases hupd : c.Update s1 (f cl) with ⟨⟨r1, oe⟩, s2⟩
      cases oe with
      | none =>
        refine ⟨_, _, _, _, Runs.accepted n r r1 s s1 s2 cl hget hupd, ?_, fun log => ?_⟩
        · simp [retryutil.retryLoop, updateAttempt, hget, hupd]
        · simp [retryutil.retryLoop, updateAttempt, logged, hget, hupd]
      | some err =>
        cases hconf : apierrors.IsConflict err with
        | false =>
          refine ⟨_, _, _, _, Runs.writeFailed n r r1 s s1 s2 cl err hget hupd hconf, ?_,
            fun log => ?_⟩
          · simp [retryutil.retryLoop, updateAttempt, hget, hupd, hconf]
          · simp [retryutil.retryLoop, updateAttempt, logged, hget, hupd, hconf]
        | true =>
          obtain ⟨tr, e, r2, s3, hruns, hplain, hlog⟩ := ih r1 s2
          refine ⟨_, _, _, _,
            Runs.conflict n r r1 r2 s s1 s2 s3 cl err tr e hget hupd hconf hruns, ?_,
            fun log => ?_⟩
          · simp [retryutil.retryLoop, updateAttempt, hget, hupd, hconf, hplain]
          · have hstep : updateAttempt (logged c) name ns f (r, (s, log)) =
                ((false, none), (r1, (s2, (log ++ [Call.get ns name (Except.ok cl)]) ++
                  [Call.update (f cl) r1 (some err)]))) := by
              simp [updateAttempt, logged, hget, hupd, hconf]
            simp only [retryutil.retryLoop, hstep]
            rw [hlog]
            simp

/-- One run describes the call of `AtomicUpdateClusterCR`: its results and its
journal. -/
theorem AtomicUpdateClusterCR_runs {σ : Type} (c : EtcdClusterCR σ) (name ns : String)
    (maxRetries : Int) (f : EtcdClusterCRUpdateFunc) (s : σ) :
    ∃ tr e r1 s1,
      Runs c name ns f maxRetries maxRetries.toNat (some EtcdCluster.zero) s tr e r1 s1 ∧
      AtomicUpdateClusterCR c name ns maxRetries f s = ((r1, e), s1) ∧
      journal c name ns maxRetries f s = tr := by
  obtain ⟨tr, e, r1, s1, hruns, hplain, hlog⟩ :=
    retryLoop_runs c name ns f maxRetries maxRetries.toNat (some EtcdCluster.zero) s
  refine ⟨tr, e, r1, s1, hruns, ?_, ?_⟩
  · simp [AtomicUpdateClusterCR, retryutil.Retry, hplain]
  · simp [journal, AtomicUpdateClusterCR, retryutil.Retry, hlog]

/-- In a run, a call that fails otherwise than by a write conflict is the last
call, and its error is the error of the run. -/
theorem Runs.fatal_last {σ : Type} {c : EtcdClusterCR σ} {name ns : String}
    {f : EtcdClusterCRUpdateFunc} {m : Int} {n : Nat} {r r1 : Option EtcdCluster} {s s1 : σ}
    {tr : List Call} {e : Option GoError} (h : Runs c name ns f m n r s tr e r1 s1) :
    ∀ (pre post : List Call) (x : Call) (err : GoError),
      tr = pre ++ x :: post → x.fatal = some err → post = [] ∧ e = some err := by
  induction h with
  | exhausted r s =>
    intro pre post x err htr
    simp at htr
  | fetchFailed n r s s1 err0 hget =>
    intro pre post x err htr hx
    cases pre with
    | nil =>
      simp at htr
      obtain ⟨hx1, hpost⟩ := htr
      subst hx1
      simp [Call.fatal] at hx
      exact ⟨hpost, by rw [hx]⟩
    | cons y pre => simp at htr
  | conflict n r r1 r2 s s1 s2 s3 cl err0 tr e hget hupd hconf hrest ih =>
    intro pre post x err htr hx
    cases pre with
    | nil =>
      simp at htr
      obtain ⟨hx1, _⟩ := htr
      subst hx1
      simp [Call.fatal] at hx
    | cons y pre =>
      cases pre with
      | nil =>
        simp at htr
        obtain ⟨_, hx1, _⟩ := htr
        subst hx1
        simp [Call.fatal, hconf] at hx
      | cons z pre =>
        simp at htr
        exact ih pre post x err htr.2.2 hx
  | writeFailed n r r1 s s1 s2 cl err0 hget hupd hconf =>
    intro pre post x err htr hx
    cases pre with
    | nil =>
      simp at htr
      obtain ⟨hx1, _⟩ := htr
      subst hx1
      simp [Call.fatal] at hx
    | cons y pre =>
      cases pre with
      | nil =>
        simp at htr
        obtain ⟨_, hx1, hpost⟩ := htr
        subst hx1
        simp [Call.fatal, hconf] at hx
        exact ⟨hpost, by rw [hx]⟩
      | cons z pre => simp at htr
  | accepted n r r1 s s1 s2 cl hget hupd =>
    intro pre post x err htr hx
    cases pre with
    | nil =>
      simp at htr
      obtain ⟨hx1, _⟩ := htr
      subst hx1
      simp [Call.fatal] at hx
    | cons y pre =>
      cases pre with
      | nil =>
        simp at htr
        obtain ⟨_, hx1, _⟩ := htr
        subst hx1
        simp [Call.fatal] at hx
      | cons z pre => simp at htr

/-- In a run, every write is the resource of the fetch made just before it,
with the transform applied once, and a call that follows a write is a fetch of
`(ns, name)`. -/
theorem Runs.write_after_fetch {σ : Type} {c : EtcdClusterCR σ} {name ns : String}
    {f : EtcdClusterCRUpdateFunc} {m : Int} {n : Nat} {r r1 : Option EtcdCluster} {s s1 : σ}
    {tr : List Call} {e : Option GoError} (h : Runs c name ns f m n r s tr e r1 s1) :
    (∀ (pre post : List Call) (cl : EtcdCluster) (res : Option EtcdCluster)
        (err : Option GoError), tr = pre ++ Call.update cl res err :: post →
        ∃ pre1 fetched, pre = pre1 ++ [Call.get ns name (Except.ok fetched)] ∧
          cl = f fetched) ∧
    (∀ (pre post : List Call) (cl : EtcdCluster) (res : Option EtcdCluster)
        (err : Option GoError) (y : Call), tr = pre ++ Call.update cl res err :: y :: post →
        ∃ g, y = Call.get ns name g) ∧
    (∀ y rest, tr = y :: rest → ∃ g, y = Call.get ns name g) := by
  induction h with
  | exhausted r s =>
    refine ⟨?_, ?_, ?_⟩
    · intro pre post cl res err htr
      simp at htr
    · intro pre post cl res err y htr
      simp at htr
    · intro y rest htr
      simp at htr
  | fetchFailed n r s s1 err0 hget =>
    refine ⟨?_, ?_, ?_⟩
    · intro pre post cl res err htr
      cases pre with
      | nil => simp at htr
      | cons y pre => simp at htr
    · intro pre post cl res err y htr
      cases pre with
      | nil => simp at htr
      | cons y pre => simp at htr
    · intro y rest htr
      simp at htr
      exact ⟨_, htr.1.symm⟩
  | conflict n r r1 r2 s s1 s2 s3 cl0 err0 tr e hget hupd hconf hrest ih =>
    obtain ⟨ih1, ih2, ih3⟩ := ih
    refine ⟨?_, ?_, ?_⟩
    · intro pre post cl res err htr
      cases pre with
      | nil => simp at htr
      | cons y pre =>
        cases pre with
        | nil =>
          simp at htr
          obtain ⟨hy, ⟨hcl, _, _⟩, _⟩ := htr
          exact ⟨[], cl0, by simp [hy], hcl.symm⟩
        | cons z pre =>
          simp at htr
          obtain ⟨hy, hz, htr1⟩ := htr
          obtain ⟨pre1, fetched, hpre, hcl⟩ := ih1 pre post cl res err htr1
          exact ⟨y :: z :: pre1, fetched, by simp [hpre], hcl⟩
    · intro pre post cl res err y htr
      cases pre with
      | nil => simp at htr
      | cons y1 pre =>
        cases pre with
        | nil =>
          simp at htr
          exact ih3 y post htr.2.2
        | cons z pre =>
          simp at htr
          exact ih2 pre post cl res err y htr.2.2
    · intro y rest htr
      simp at htr
      exact ⟨_, htr.1.symm⟩
  | writeFailed n r r1 s s1 s2 cl0 err0 hget hupd hconf =>
    refine ⟨?_, ?_, ?_⟩
    · intro pre post cl res err htr
      cases pre with
      | nil => simp at htr
      | cons y pre =>
        cases pre with
        | nil =>
          simp at htr
          obtain ⟨hy, ⟨hcl, _, _⟩, _⟩ := htr
          exact ⟨[], cl0, by simp [hy], hcl.symm⟩
        | cons z pre => simp at htr
    · intro pre post cl res err y htr
      cases pre with
      | nil => simp at htr
      | cons y1 pre =>
        cases pre with
        | nil => simp at htr
        | cons z pre => simp at htr
    · intro y rest htr
      simp at htr
      exact ⟨_, htr.1.symm⟩
  | accepted n r r1 s s1 s2 cl0 hget hupd =>
    refine ⟨?_, ?_, ?_⟩
    · intro pre post cl res err htr
      cases pre with
      | nil => simp at htr
      | cons y pre =>
        cases pre with
        | nil =>
          simp at htr
          obtain ⟨hy, ⟨hcl, _, _⟩, _⟩ := htr
          exact ⟨[], cl0, by simp [hy], hcl.symm⟩
        | cons z pre => simp at htr
    · intro pre post cl res err y htr
      cases pre with
      | nil => simp at htr
      | cons y1 pre =>
        cases pre with
        | nil => simp at htr
        | cons z pre => simp at htr
    · intro y rest htr
      simp at htr
      exact ⟨_, htr.1.symm⟩

/-- In a run there are at least as many fetches as writes. -/
theorem Runs.writes_le_fetches {σ : Type} {c : EtcdClusterCR σ} {name ns : String}
    {f : EtcdClusterCRUpdateFunc} {m : Int} {n : Nat} {r r1 : Option EtcdCluster} {s s1 : σ}
    {tr : List Call} {e : Option GoError} (h : Runs c name ns f m n r s tr e r1 s1) :
    tr.countP Call.isUpdate ≤ tr.countP Call.isGet := by
  induction h with
  | exhausted r s => simp
  | fetchFailed n r s s1 err0 hget => simp [Call.isUpdate, Call.isGet]
  | conflict n r r1 r2 s s1 s2 s3 cl0 err0 tr e hget hupd hconf hrest ih =>
    simp [List.countP_cons, Call.isUpdate, Call.isGet]
    exact ih
  | writeFailed n r r1 s s1 s2 cl0 err0 hget hupd hconf =>
    simp [List.countP_cons, Call.isUpdate, Call.isGet]
  | accepted n r r1 s s1 s2 cl0 hget hupd =>
    simp [List.countP_cons, Call.isUpdate, Call.isGet]

/-- A run in which every call belongs to an attempt that ends in a write
conflict uses up all its attempts, ends with the retry-budget error, and
leaves in `result` what the last rejected write returned. -/
theorem Runs.all_conflicts {σ : Type} {c : EtcdClusterCR σ} {name ns : String}
    {f : EtcdClusterCRUpdateFunc} {m : Int} {n : Nat} {r r1 : Option EtcdCluster} {s s1 : σ}
    {tr : List Call} {e : Option GoError} (h : Runs c name ns f m n r s tr e r1 s1) :
    (∀ x ∈ tr, x.inConflictAttempt = true) →
      e = some (GoError.retry m) ∧ tr.length = 2 * n ∧
      ((tr = [] ∧ r1 = r) ∨
        ∃ pre cl err, tr = pre ++ [Call.update cl r1 (some err)] ∧
          apierrors.IsConflict err = true) := by
  induction h with
  | exhausted r s =>
    intro _
    exact ⟨rfl, rfl, Or.inl ⟨rfl, rfl⟩⟩
  | fetchFailed n r s s1 err0 hget =>
    intro hall
    have := hall _ (List.mem_singleton.mpr rfl)
    simp [Call.inConflictAttempt] at this
  | conflict n r r1 r2 s s1 s2 s3 cl0 err0 tr e hget hupd hconf hrest ih =>
    intro hall
    have hall1 : ∀ x ∈ tr, x.inConflictAttempt = true := fun x hx =>
      hall x (List.mem_cons_of_mem _ (List.mem_cons_of_mem _ hx))
    obtain ⟨he, hlen, hlast⟩ := ih hall1
    refine ⟨he, by simp [hlen]; omega, Or.inr ?_⟩
    rcases hlast with ⟨htr, hr⟩ | ⟨pre, cl, err, htr, hc⟩
    · exact ⟨[Call.get ns name (Except.ok cl0)], f cl0, err0, by simp [htr, hr], hconf⟩
    · exact ⟨Call.get ns name (Except.ok cl0) :: Call.update (f cl0) r1 (some err0) :: pre,
        cl, err, by simp [htr], hc⟩
  | writeFailed n r r1 s s1 s2 cl0 err0 hget hupd hconf =>
    intro hall
    have := hall (Call.update (f cl0) r1 (some err0)) (by simp)
    simp [Call.inConflictAttempt, hconf] at this
  | accepted n r r1 s s1 s2 cl0 hget hupd =>
    intro hall
    have := hall (Call.update (f cl0) r1 none) (by simp)
    simp [Call.inConflictAttempt] at this

/-- A run on a store whose fetches succeed and which, counting the writes it
has received with `writes`, rejects a write with a conflict while fewer than
`N` came before and accepts the write after `N` earlier ones. -/
theorem Runs.conflicts_then_accept {σ : Type} {c : EtcdClusterCR σ} {name ns : String}
    {f : EtcdClusterCRUpdateFunc} {m : Int} {n : Nat} {r r1 : Option EtcdCluster} {s s1 : σ}
    {tr : List Call} {e : Option GoError} (h : Runs c name ns f m n r s tr e r1 s1)
    (writes : σ → Nat) (N : Nat)
    (hfetch : ∀ st ns1 name1, ∃ cl, (c.Get st ns1 name1).1 = Except.ok cl ∧
      writes (c.Get st ns1 name1).2 = writes st)
    (hcount : ∀ st cl, writes (c.Update st cl).2 = writes st + 1)
    (hrej : ∀ st cl, writes st < N →
      ∃ err, (c.Update st cl).1.2 = some err ∧ apierrors.IsConflict err = true)
    (hacc : ∀ st cl, writes st = N → (c.Update st cl).1.2 = none) :
    writes s ≤ N →
      (N - writes s < n →
        e = none ∧ ∃ pre fetched,
          tr = pre ++ [Call.get ns name (Except.ok fetched), Call.update (f fetched) r1 none] ∧
          pre.length = 2 * (N - writes s) ∧ ∀ x ∈ pre, x.isAccepted = false) ∧
      (n ≤ N - writes s →
        e = some (GoError.retry m) ∧ tr.length = 2 * n ∧ ∀ x ∈ tr, x.isAccepted = false) := by
  induction h with
  | exhausted r s =>
    intro _
    exact ⟨fun h => absurd h (Nat.not_lt_zero _), fun _ => ⟨rfl, rfl, by simp⟩⟩
  | fetchFailed n r s s1 err0 hget =>
    intro _
    obtain ⟨cl, hcl, _⟩ := hfetch s ns name
    rw [hget] at hcl
    simp at hcl
  | conflict n r r1 r2 s s1 s2 s3 cl0 err0 tr e hget hupd hconf hrest ih =>
    intro hle
    have hs1 : writes s1 = writes s := by
      obtain ⟨_, _, h2⟩ := hfetch s ns name
      rw [hget] at h2
      exact h2
    have hs2 : writes s2 = writes s + 1 := by
      have := hcount s1 (f cl0)
      rw [hupd] at this
      simpa [hs1] using this
    have hlt : writes s < N := by
      rcases Nat.lt_or_ge (writes s) N with h | h
      · exact h
      · have := hacc s1 (f cl0) (by omega)
        rw [hupd] at this
        simp at this
    obtain ⟨ih1, ih2⟩ := ih (by omega)
    constructor
    · intro hn
      obtain ⟨he, pre, fetched, htr, hlen, hpre⟩ := ih1 (by omega)
      refine ⟨he, Call.get ns name (Except.ok cl0) :: Call.update (f cl0) r1 (some err0) :: pre,
        fetched, by simp [htr], by simp [hlen]; omega, ?_⟩
      intro x hx
      simp at hx
      rcases hx with hx | hx | hx
      · simp [hx, Call.isAccepted]
      · simp [hx, Call.isAccepted]
      · exact hpre x hx
    · intro hn
      obtain ⟨he, hlen, htr⟩ := ih2 (by omega)
      refine ⟨he, by simp [hlen]; omega, ?_⟩
      intro x hx
      simp at hx
      rcases hx with hx | hx | hx
      · simp [hx, Call.isAccepted]
      · simp [hx, Call.isAccepted]
      · exact htr x hx
  | writeFailed n r r1 s s1 s2 cl0 err0 hget hupd hconf =>
    intro hle
    have hs1 : writes s1 = writes s := by
      obtain ⟨_, _, h2⟩ := hfetch s ns name
      rw [hget] at h2
      exact h2
    rcases Nat.lt_or_ge (writes s) N with h | h
    · obtain ⟨err, herr, hc⟩ := hrej s1 (f cl0) (by omega)
      rw [hupd] at herr
      simp at herr
      rw [herr, hc] at hconf
      simp at hconf
    · have := hacc s1 (f cl0) (by omega)
      rw [hupd] at this
      simp at this
  | accepted n r r1 s s1 s2 cl0 hget hupd =>
    intro hle
    have hs1 : writes s1 = writes s := by
      obtain ⟨_, _, h2⟩ := hfetch s ns name
      rw [hget] at h2
      exact h2
    have heq : writes s = N := by
      rcases Nat.lt_or_ge (writes s) N with h | h
      · obtain ⟨err, herr, _⟩ := hrej s1 (f cl0) (by omega)
        rw [hupd] at herr
        simp at herr
      · omega
    constructor
    · intro _
      exact ⟨rfl, [], cl0, by simp, by simp [heq], by simp⟩
    · intro hn
      omega

/-- C7: on a store whose fetches always succeed and which rejects the first `N`
writes with a conflict and accepts the next one (`writes` counts the writes the
store has received), `AtomicUpdateClusterCR` with `maxRetries > N` makes `N`
attempts without an accepted write, then a fetch and the accepted write, and
returns a nil error with the resource that this write returned; with
`0 < maxRetries <= N` it returns the retry-budget error and the store accepts
no write. -/
theorem AtomicUpdateClusterCR_conflicts_then_accept {σ : Type} (c : EtcdClusterCR σ)
    (writes : σ → Nat) (N : Nat) (name ns : String) (maxRetries : Int)
    (f : EtcdClusterCRUpdateFunc) (s : σ)
    (hfetch : ∀ st ns1 name1, ∃ cl, (c.Get st ns1 name1).1 = Except.ok cl ∧
      writes (c.Get st ns1 name1).2 = writes st)
    (hcount : ∀ st cl, writes (c.Update st cl).2 = writes st + 1)
    (hrej : ∀ st cl, writes st < N →
      ∃ err, (c.Update st cl).1.2 = some err ∧ apierrors.IsConflict err = true)
    (hacc : ∀ st cl, writes st = N → (c.Update st cl).1.2 = none)
    (hzero : writes s = 0) :
    ((N : Int) < maxRetries →
      ∃ pre fetched res,
        journal c name ns maxRetries f s =
          pre ++ [Call.get ns name (Except.ok fetched), Call.update (f fetched) res none] ∧
        pre.length = 2 * N ∧ (∀ x ∈ pre, x.isAccepted = false) ∧
        (AtomicUpdateClusterCR c name ns maxRetries f s).1 = (res, none)) ∧
    (0 < maxRetries → maxRetries ≤ (N : Int) →
      (AtomicUpdateClusterCR c name ns maxRetries f s).1.2 = some (GoError.retry maxRetries) ∧
        ∀ x ∈ journal c name ns maxRetries f s, x.isAccepted = false) := by
  obtain ⟨tr, e, r1, s1, hruns, hres, hj⟩ := AtomicUpdateClusterCR_runs c name ns maxRetries f s
  obtain ⟨h1, h2⟩ :=
    hruns.conflicts_then_accept writes N hfetch hcount hrej hacc (by omega)
  rw [hres, hj]
  constructor
  · intro hlt
    obtain ⟨he, pre, fetched, htr, hlen, hpre⟩ := h1 (by omega)
    exact ⟨pre, fetched, r1, htr, by simpa [hzero] using hlen, hpre, by simp [he]⟩
  · intro hpos hle
    obtain ⟨he, _, htr⟩ := h2 (by omega)
    exact ⟨he, htr⟩

/-- Witness of `AtomicUpdateClusterCR_conflicts_then_accept`: the simulated
store with 3 conflicts, with `maxRetries = 5` (success on the 4th attempt) and
with `maxRetries = 2` (budget used up). -/
theorem AtomicUpdateClusterCR_conflicts_then_accept_witness :
    (∃ pre fetched res,
        journal (simStore 3 (fun _ => some EtcdCluster.zero)) "etcd1" "prod" 5 attachStatus
            ⟨0, sampleCluster⟩ =
          pre ++ [Call.get "prod" "etcd1" (Except.ok fetched),
            Call.update (attachStatus fetched) res none] ∧
        pre.length = 2 * 3 ∧ (∀ x ∈ pre, x.isAccepted = false) ∧
        (AtomicUpdateClusterCR (simStore 3 (fun _ => some EtcdCluster.zero)) "etcd1" "prod" 5
            attachStatus ⟨0, sampleCluster⟩).1 = (res, none)) ∧
    ((AtomicUpdateClusterCR (simStore 3 (fun _ => some EtcdCluster.zero)) "etcd1" "prod" 2
          attachStatus ⟨0, sampleCluster⟩).1.2 = some (GoError.retry 2) ∧
      ∀ x ∈ journal (simStore 3 (fun _ => some EtcdCluster.zero)) "etcd1" "prod" 2 attachStatus
          ⟨0, sampleCluster⟩, x.isAccepted = false) :=
  ⟨(AtomicUpdateClusterCR_conflicts_then_accept (simStore 3 (fun _ => some EtcdCluster.zero))
      SimState.writes 3 "etcd1" "prod" 5 attachStatus ⟨0, sampleCluster⟩
      (fun st _ _ => ⟨st.stored, rfl, rfl⟩)
      (fun st cl => by simp only [simStore]; split <;> rfl)
      (fun st cl h => ⟨GoError.status "Conflict" "the object has been modified",
        by simp [simStore, h], by decide⟩)
      (fun st cl h => by simp [simStore, h])
      rfl).1 (by decide),
   (AtomicUpdateClusterCR_conflicts_then_accept (simStore 3 (fun _ => some EtcdCluster.zero))
      SimState.writes 3 "etcd1" "prod" 2 attachStatus ⟨0, sampleCluster⟩
      (fun st _ _ => ⟨st.stored, rfl, rfl⟩)
      (fun st cl => by simp only [simStore]; split <;> rfl)
      (fun st cl h => ⟨GoError.status "Conflict" "the object has been modified",
        by simp [simStore, h], by decide⟩)
      (fun st cl h => by simp [simStore, h])
      rfl).2 (by decide) (by decide)⟩

/-- C8: in one call of `AtomicUpdateClusterCR`, a store call that fails
otherwise than by a write conflict (a failed fetch, or a write rejected with an
error that is not a conflict) is the last call made to the store, and its error
is the error returned, whatever `maxRetries` is. -/
theorem AtomicUpdateClusterCR_fatal_aborts {σ : Type} (c : EtcdClusterCR σ)
    (name ns : String) (maxRetries : Int) (f : EtcdClusterCRUpdateFunc) (s : σ)
    (pre post : List Call) (x : Call) (err : GoError)
    (hj : journal c name ns maxRetries f s = pre ++ x :: post)
    (hx : x.fatal = some err) :
    post = [] ∧ (AtomicUpdateClusterCR c name ns maxRetries f s).1.2 = some err := by
  obtain ⟨tr, e, r1, s1, hruns, hres, htr⟩ := AtomicUpdateClusterCR_runs c name ns maxRetries f s
  rw [htr] at hj
  obtain ⟨hpost, he⟩ := hruns.fatal_last pre post x err hj hx
  exact ⟨hpost, by rw [hres]; exact he⟩

/-- Witness of `AtomicUpdateClusterCR_fatal_aborts`: on the store without
resources the first fetch fails with `NotFound`; with `maxRetries = 5` that
fetch is the only call and `NotFound` is returned. -/
theorem AtomicUpdateClusterCR_fatal_aborts_witness :
    journal emptyStore "etcd1" "prod" 5 attachStatus () =
        [Call.get "prod" "etcd1" (Except.error (GoError.status "NotFound" "not found"))] ∧
      (AtomicUpdateClusterCR emptyStore "etcd1" "prod" 5 attachStatus ()).1.2 =
        some (GoError.status "NotFound" "not found") :=
  ⟨rfl,
    (AtomicUpdateClusterCR_fatal_aborts emptyStore "etcd1" "prod" 5 attachStatus () [] []
      (Call.get "prod" "etcd1" (Except.error (GoError.status "NotFound" "not found")))
      (GoError.status "NotFound" "not found") rfl rfl).2⟩

/-- C9, as stated, fails: `result` is assigned by every write, rejected or not.
On a store that hands back the submitted copy beside the conflict error, two
conflicting attempts out of `maxRetries = 2` end with the retry-budget error
and the copy submitted last, not the empty resource; on a store that returns
nil beside the error they end with nil. -/
theorem AtomicUpdateClusterCR_all_conflicts_result_not_zero :
    (∀ x ∈ journal (simStore 2 some) "etcd1" "prod" 2 attachStatus ⟨0, sampleCluster⟩,
        x.inConflictAttempt = true) ∧
      (AtomicUpdateClusterCR (simStore 2 some) "etcd1" "prod" 2 attachStatus
          ⟨0, sampleCluster⟩).1 = (some (attachStatus sampleCluster), some (GoError.retry 2)) ∧
      some (attachStatus sampleCluster) ≠ some EtcdCluster.zero ∧
      (∀ x ∈ journal (simStore 2 (fun _ => none)) "etcd1" "prod" 2 attachStatus
          ⟨0, sampleCluster⟩, x.inConflictAttempt = true) ∧
      (AtomicUpdateClusterCR (simStore 2 (fun _ => none)) "etcd1" "prod" 2 attachStatus
          ⟨0, sampleCluster⟩).1 = (none, some (GoError.retry 2)) := by
  refine ⟨?_, rfl, ?_, ?_, rfl⟩
  · intro x hx
    have hj : journal (simStore 2 some) "etcd1" "prod" 2 attachStatus ⟨0, sampleCluster⟩ =
        [Call.get "prod" "etcd1" (Except.ok sampleCluster),
          Call.update (attachStatus sampleCluster) (some (attachStatus sampleCluster))
            (some (GoError.status "Conflict" "the object has been modified")),
          Call.get "prod" "etcd1" (Except.ok sampleCluster),
          Call.update (attachStatus sampleCluster) (some (attachStatus sampleCluster))
            (some (GoError.status "Conflict" "the object has been modified"))] := rfl
    rw [hj] at hx
    simp at hx
    rcases hx with hx | hx | hx | hx <;> subst hx <;> rfl
  · simp [attachStatus, sampleCluster, EtcdCluster.zero]
  · intro x hx
    have hj : journal (simStore 2 (fun _ => none)) "etcd1" "prod" 2 attachStatus
          ⟨0, sampleCluster⟩ =
        [Call.get "prod" "etcd1" (Except.ok sampleCluster),
          Call.update (attachStatus sampleCluster) none
            (some (GoError.status "Conflict" "the object has been modified")),
          Call.get "prod" "etcd1" (Except.ok sampleCluster),
          Call.update (attachStatus sampleCluster) none
            (some (GoError.status "Conflict" "the object has been modified"))] := rfl
    rw [hj] at hx
    simp at hx
    rcases hx with hx | hx | hx | hx <;> subst hx <;> rfl

/-- C9, amended: when `0 < maxRetries` and every attempt of
`AtomicUpdateClusterCR` ends in a write conflict, all `maxRetries` attempts are
made, the call returns the retry-budget error, and the resource returned is
what the last rejected write returned beside its conflict error; it is the
empty `EtcdCluster` when the store returns the empty resource with every write
it rejects. -/
theorem AtomicUpdateClusterCR_all_conflicts {σ : Type} (c : EtcdClusterCR σ)
    (name ns : String) (maxRetries : Int) (f : EtcdClusterCRUpdateFunc) (s : σ)
    (hpos : 0 < maxRetries)
    (hall : ∀ x ∈ journal c name ns maxRetries f s, x.inConflictAttempt = true) :
    (AtomicUpdateClusterCR c name ns maxRetries f s).1.2 = some (GoError.retry maxRetries) ∧
      (journal c name ns maxRetries f s).length = 2 * maxRetries.toNat ∧
      (∃ pre cl err,
        journal c name ns maxRetries f s =
          pre ++ [Call.update cl (AtomicUpdateClusterCR c name ns maxRetries f s).1.1
            (some err)] ∧
        apierrors.IsConflict err = true) ∧
      ((∀ cl res err, Call.update cl res (some err) ∈ journal c name ns maxRetries f s →
          res = some EtcdCluster.zero) →
        (AtomicUpdateClusterCR c name ns maxRetries f s).1.1 = some EtcdCluster.zero) := by
  obtain ⟨tr, e, r1, s1, hruns, hres, htr⟩ := AtomicUpdateClusterCR_runs c name ns maxRetries f s
  rw [htr] at hall
  obtain ⟨he, hlen, hlast⟩ := hruns.all_conflicts hall
  rw [hres, htr]
  have hlast1 : ∃ pre cl err, tr = pre ++ [Call.update cl r1 (some err)] ∧
      apierrors.IsConflict err = true := by
    rcases hlast with ⟨hnil, _⟩ | h
    · rw [hnil] at hlen
      simp at hlen
      omega
    · exact h
  refine ⟨he, hlen, hlast1, ?_⟩
  intro hzero
  obtain ⟨pre, cl, err, hpre, _⟩ := hlast1
  exact hzero cl r1 err (by simp [hpre])

/-- Witness of `AtomicUpdateClusterCR_all_conflicts`: the simulated store that
returns the empty resource beside its conflicts, two conflicts,
`maxRetries = 2`. -/
theorem AtomicUpdateClusterCR_all_conflicts_witness :
    (AtomicUpdateClusterCR (simStore 2 (fun _ => some EtcdCluster.zero)) "etcd1" "prod" 2
        attachStatus ⟨0, sampleCluster⟩).1.2 = some (GoError.retry 2) ∧
      (journal (simStore 2 (fun _ => some EtcdCluster.zero)) "etcd1" "prod" 2 attachStatus
        ⟨0, sampleCluster⟩).length = 2 * (2 : Int).toNat ∧
      (AtomicUpdateClusterCR (simStore 2 (fun _ => some EtcdCluster.zero)) "etcd1" "prod" 2
        attachStatus ⟨0, sampleCluster⟩).1.1 = some EtcdCluster.zero := by
  have hj : journal (simStore 2 (fun _ => some EtcdCluster.zero)) "etcd1" "prod" 2 attachStatus
        ⟨0, sampleCluster⟩ =
      [Call.get "prod" "etcd1" (Except.ok sampleCluster),
        Call.update (attachStatus sampleCluster) (some EtcdCluster.zero)
          (some (GoError.status "Conflict" "the object has been modified")),
        Call.get "prod" "etcd1" (Except.ok sampleCluster),
        Call.update (attachStatus sampleCluster) (some EtcdCluster.zero)
          (some (GoError.status "Conflict" "the object has been modified"))] := rfl
  have h := AtomicUpdateClusterCR_all_conflicts
    (simStore 2 (fun _ => some EtcdCluster.zero)) "etcd1" "prod" 2 attachStatus
    ⟨0, sampleCluster⟩ (by decide) (by
      intro x hx
      rw [hj] at hx
      simp at hx
      rcases hx with hx | hx | hx | hx <;> subst hx <;> rfl)
  refine ⟨h.1, h.2.1, h.2.2.2 ?_⟩
  intro cl res err hmem
  rw [hj] at hmem
  simp at hmem
  exact hmem.2.1

/-- C10: in every call of `AtomicUpdateClusterCR`, each write submitted to the
store is immediately preceded by a successful fetch of `(namespace, name)` and
is the resource that this fetch returned with the transform applied once; the
call that follows a write, if any, is a fetch of `(namespace, name)` again; the
first call is a fetch; and the number of fetches is at least the number of
writes. -/
theorem AtomicUpdateClusterCR_write_after_fetch {σ : Type} (c : EtcdClusterCR σ)
    (name ns : String) (maxRetries : Int) (f : EtcdClusterCRUpdateFunc) (s : σ) :
    (∀ (pre post : List Call) (cl : EtcdCluster) (res : Option EtcdCluster)
        (err : Option GoError),
        journal c name ns maxRetries f s = pre ++ Call.update cl res err :: post →
        ∃ pre1 fetched, pre = pre1 ++ [Call.get ns name (Except.ok fetched)] ∧
          cl = f fetched) ∧
    (∀ (pre post : List Call) (cl : EtcdCluster) (res : Option EtcdCluster)
        (err : Option GoError) (y : Call),
        journal c name ns maxRetries f s = pre ++ Call.update cl res err :: y :: post →
        ∃ g, y = Call.get ns name g) ∧
    (∀ y rest, journal c name ns maxRetries f s = y :: rest → ∃ g, y = Call.get ns name g) ∧
    (journal c name ns maxRetries f s).countP Call.isUpdate ≤
      (journal c name ns maxRetries f s).countP Call.isGet := by
  obtain ⟨tr, e, r1, s1, hruns, _, htr⟩ := AtomicUpdateClusterCR_runs c name ns maxRetries f s
  rw [htr]
  obtain ⟨h1, h2, h3⟩ := hruns.write_after_fetch
  exact ⟨h1, h2, h3, hruns.writes_le_fetches⟩

/-- Witness of `AtomicUpdateClusterCR_write_after_fetch`: on the simulated store
with one conflict and `maxRetries = 3` the journal is fetch, rejected write,
fetch, accepted write; the accepted write is the transform of the second
fetch. -/
theorem AtomicUpdateClusterCR_write_after_fetch_witness :
    journal (simStore 1 (fun _ => some EtcdCluster.zero)) "etcd1" "prod" 3 attachStatus
        ⟨0, sampleCluster⟩ =
      [Call.get "prod" "etcd1" (Except.ok sampleCluster),
        Call.update (attachStatus sampleCluster) (some EtcdCluster.zero)
          (some (GoError.status "Conflict" "the object has been modified")),
        Call.get "prod" "etcd1" (Except.ok sampleCluster)] ++
        Call.update (attachStatus sampleCluster)
          (some { attachStatus sampleCluster with ResourceVersion := "7+" }) none :: [] ∧
    ∃ pre1 fetched,
      [Call.get "prod" "etcd1" (Except.ok sampleCluster),
        Call.update (attachStatus sampleCluster) (some EtcdCluster.zero)
          (some (GoError.status "Conflict" "the object has been modified")),
        Call.get "prod" "etcd1" (Except.ok sampleCluster)] =
        pre1 ++ [Call.get "prod" "etcd1" (Except.ok fetched)] ∧
      attachStatus sampleCluster = attachStatus fetched :=
  ⟨rfl,
    (AtomicUpdateClusterCR_write_after_fetch (simStore 1 (fun _ => some EtcdCluster.zero))
      "etcd1" "prod" 3 attachStatus ⟨0, sampleCluster⟩).1 _ [] _ _ _ rfl⟩

end e2eutil

/-! Further theorems on the backup policy validation -/

namespace v1beta2

/-- C14: for a policy with `MaxBackups >= 0` whose storage type is anything but
`PersistentVolume` (`S3`, `ABS`, the empty string, an unknown string),
`Validate` returns nil, and it still does after the storage source (the fields
`PV`, `S3`, `ABS`) is replaced by any other. -/
theorem Validate_other_storage_type (p : BackupPolicy) (hmax : 0 ≤ p.MaxBackups)
    (hty : p.StorageType ≠ "PersistentVolume") :
    p.Validate = none ∧
      ∀ src : StorageSource, BackupPolicy.Validate { p with toStorageSource := src } = none := by
  have h1 : ¬ p.MaxBackups < 0 := not_lt.mpr hmax
  constructor
  · unfold BackupPolicy.Validate BackupStorageTypePersistentVolume
    simp [h1, hty]
  · intro src
    unfold BackupPolicy.Validate BackupStorageTypePersistentVolume
    simp [h1, hty]

/-- Witness of `Validate_other_storage_type`: the storage type `S3` with no S3
source. -/
theorem Validate_other_storage_type_witness :
    BackupPolicy.Validate
        { PV := none, S3 := none, ABS := none, Pod := none, StorageType := "S3",
          BackupIntervalInSecond := 0, MaxBackups := 0, AutoDelete := false } = none ∧
      ∀ src : StorageSource,
        BackupPolicy.Validate
          { ({ PV := none, S3 := none, ABS := none, Pod := none, StorageType := "S3",
               BackupIntervalInSecond := 0, MaxBackups := 0, AutoDelete := false } :
              BackupPolicy) with toStorageSource := src } = none :=
  Validate_other_storage_type
    { PV := none, S3 := none, ABS := none, Pod := none, StorageType := "S3",
      BackupIntervalInSecond := 0, MaxBackups := 0, AutoDelete := false }
    (by decide) (by decide)

/-- C15, the code at the failing input: with the storage type left empty and no
PV source `Validate` returns nil, while the same policy with the storage type
`PersistentVolume` gets `errPVZeroSize`. -/
theorem Validate_default_storage_type_not_checked :
    BackupPolicy.Validate
        { PV := none, S3 := none, ABS := none, Pod := none,
          StorageType := BackupStorageTypeDefault, BackupIntervalInSecond := 0,
          MaxBackups := 0, AutoDelete := false } = none ∧
      BackupPolicy.Validate
        { PV := none, S3 := none, ABS := none, Pod := none,
          StorageType := BackupStorageTypePersistentVolume, BackupIntervalInSecond := 0,
          MaxBackups := 0, AutoDelete := false } = some errPVZeroSize :=
  ⟨by decide, by decide⟩

end v1beta2

/-! Further theorems on the update loop -/

namespace e2eutil

/-- In a run, a write that the store accepts is the last call, the run ends
without error, and `result` holds what that write returned. -/
theorem Runs.accepted_last {σ : Type} {c : EtcdClusterCR σ} {name ns : String}
    {f : EtcdClusterCRUpdateFunc} {m : Int} {n : Nat} {r r1 : Option EtcdCluster} {s s1 : σ}
    {tr : List Call} {e : Option GoError} (h : Runs c name ns f m n r s tr e r1 s1) :
    ∀ (pre post : List Call) (cl : EtcdCluster) (res : Option EtcdCluster),
      tr = pre ++ Call.update cl res none :: post →
        post = [] ∧ e = none ∧ r1 = res ∧ ∀ x ∈ pre, x.isAccepted = false := by
  induction h with
  | exhausted r s =>
    intro pre post cl res htr
    simp at htr
  | fetchFailed n r s s1 err0 hget =>
    intro pre post cl res htr
    cases pre with
    | nil => simp at htr
    | cons y pre => simp at htr
  | conflict n r r1 r2 s s1 s2 s3 cl0 err0 tr e hget hupd hconf hrest ih =>
    intro pre post cl res htr
    cases pre with
    | nil => simp at htr
    | cons y pre =>
      cases pre with
      | nil => simp at htr
      | cons z pre =>
        simp at htr
        obtain ⟨hy, hz, htr1⟩ := htr
        obtain ⟨h1, h2, h3, h4⟩ := ih pre post cl res htr1
        refine ⟨h1, h2, h3, ?_⟩
        intro x hx
        simp at hx
        rcases hx with hx | hx | hx
        · simp [hx, ← hy, Call.isAccepted]
        · simp [hx, ← hz, Call.isAccepted]
        · exact h4 x hx
  | writeFailed n r r1 s s1 s2 cl0 err0 hget hupd hconf =>
    intro pre post cl res htr
    cases pre with
    | nil => simp at htr
    | cons y pre =>
      cases pre with
      | nil => simp at htr
      | cons z pre => simp at htr
  | accepted n r r1 s s1 s2 cl0 hget hupd =>
    intro pre post cl res htr
    cases pre with
    | nil => simp at htr
    | cons y pre =>
      cases pre with
      | nil =>
        simp at htr
        obtain ⟨hy, ⟨_, hres⟩, hpost⟩ := htr
        refine ⟨hpost, rfl, hres, ?_⟩
        intro x hx
        simp at hx
        simp [hx, ← hy, Call.isAccepted]
      | cons z pre => simp at htr

/-- In a run the store accepts at most one write. -/
theorem Runs.accepted_le_one {σ : Type} {c : EtcdClusterCR σ} {name ns : String}
    {f : EtcdClusterCRUpdateFunc} {m : Int} {n : Nat} {r r1 : Option EtcdCluster} {s s1 : σ}
    {tr : List Call} {e : Option GoError} (h : Runs c name ns f m n r s tr e r1 s1) :
    tr.countP Call.isAccepted ≤ 1 := by
  induction h with
  | exhausted r s => simp
  | fetchFailed n r s s1 err0 hget => simp [Call.isAccepted]
  | conflict n r r1 r2 s s1 s2 s3 cl0 err0 tr e hget hupd hconf hrest ih =>
    simp [List.countP_cons, Call.isAccepted]
    exact ih
  | writeFailed n r r1 s s1 s2 cl0 err0 hget hupd hconf =>
    simp [List.countP_cons, Call.isAccepted]
  | accepted n r r1 s s1 s2 cl0 hget hupd =>
    simp [List.countP_cons, Call.isAccepted]

/-- A run with `n` attempts left makes at most `n` fetches and at most `n`
writes, and no call at all when no attempt is left. -/
theorem Runs.attempts_le {σ : Type} {c : EtcdClusterCR σ} {name ns : String}
    {f : EtcdClusterCRUpdateFunc} {m : Int} {n : Nat} {r r1 : Option EtcdCluster} {s s1 : σ}
    {tr : List Call} {e : Option GoError} (h : Runs c name ns f m n r s tr e r1 s1) :
    tr.countP Call.isGet ≤ n ∧ tr.countP Call.isUpdate ≤ n ∧ tr.length ≤ 2 * n ∧
      (n = 0 → tr = [] ∧ e = some (GoError.retry m) ∧ r1 = r ∧ s1 = s) := by
  induction h with
  | exhausted r s => simp
  | fetchFailed n r s s1 err0 hget =>
    simp [Call.isGet, Call.isUpdate]
    omega
  | conflict n r r1 r2 s s1 s2 s3 cl0 err0 tr e hget hupd hconf hrest ih =>
    obtain ⟨h1, h2, h3, _⟩ := ih
    simp [List.countP_cons, Call.isGet, Call.isUpdate]
    omega
  | writeFailed n r r1 s s1 s2 cl0 err0 hget hupd hconf =>
    simp [List.countP_cons, Call.isGet, Call.isUpdate]
  | accepted n r r1 s s1 s2 cl0 hget hupd =>
    simp [List.countP_cons, Call.isGet, Call.isUpdate]

/-- C11: for every store, one call of `AtomicUpdateClusterCR` has at most one
write accepted by the store; an accepted write is the last call made to the
store (no fetch or write follows it, and none before it was accepted), and the
call returns a nil error with the resource that this write returned. -/
theorem AtomicUpdateClusterCR_one_accepted_write {σ : Type} (c : EtcdClusterCR σ)
    (name ns : String) (maxRetries : Int) (f : EtcdClusterCRUpdateFunc) (s : σ) :
    (journal c name ns maxRetries f s).countP Call.isAccepted ≤ 1 ∧
      ∀ (pre post : List Call) (cl : EtcdCluster) (res : Option EtcdCluster),
        journal c name ns maxRetries f s = pre ++ Call.update cl res none :: post →
          post = [] ∧ (AtomicUpdateClusterCR c name ns maxRetries f s).1 = (res, none) ∧
            ∀ x ∈ pre, x.isAccepted = false := by
  obtain ⟨tr, e, r1, s1, hruns, hres, htr⟩ := AtomicUpdateClusterCR_runs c name ns maxRetries f s
  rw [htr, hres]
  refine ⟨hruns.accepted_le_one, ?_⟩
  intro pre post cl res hj
  obtain ⟨h1, h2, h3, h4⟩ := hruns.accepted_last pre post cl res hj
  exact ⟨h1, by simp [h2, h3], h4⟩

/-- Witness of `AtomicUpdateClusterCR_one_accepted_write`: on the simulated
store with one conflict and `maxRetries = 5` the second write is accepted; it
ends the journal and its resource is returned with a nil error. -/
theorem AtomicUpdateClusterCR_one_accepted_write_witness :
    journal (simStore 1 (fun _ => some EtcdCluster.zero)) "etcd1" "prod" 5 attachStatus
        ⟨0, sampleCluster⟩ =
      [Call.get "prod" "etcd1" (Except.ok sampleCluster),
        Call.update (attachStatus sampleCluster) (some EtcdCluster.zero)
          (some (GoError.status "Conflict" "the object has been modified")),
        Call.get "prod" "etcd1" (Except.ok sampleCluster)] ++
        Call.update (attachStatus sampleCluster)
          (some { attachStatus sampleCluster with ResourceVersion := "7+" }) none :: [] ∧
    (AtomicUpdateClusterCR (simStore 1 (fun _ => some EtcdCluster.zero)) "etcd1" "prod" 5
        attachStatus ⟨0, sampleCluster⟩).1 =
      (some { attachStatus sampleCluster with ResourceVersion := "7+" }, none) :=
  ⟨rfl,
    ((AtomicUpdateClusterCR_one_accepted_write (simStore 1 (fun _ => some EtcdCluster.zero))
      "etcd1" "prod" 5 attachStatus ⟨0, sampleCluster⟩).2 _ [] _ _ rfl).2.1⟩

/-- C16: for every `maxRetries` and every store, one call of
`AtomicUpdateClusterCR` makes at most `maxRetries` attempts, that is at most
`maxRetries` fetches and at most `maxRetries` writes, and returns; with
`maxRetries <= 0` it makes no call to the store at all and leaves the store as
it was. -/
theorem AtomicUpdateClusterCR_within_budget {σ : Type} (c : EtcdClusterCR σ)
    (name ns : String) (maxRetries : Int) (f : EtcdClusterCRUpdateFunc) (s : σ) :
    ((journal c name ns maxRetries f s).countP Call.isGet : Int) ≤ max maxRetries 0 ∧
      ((journal c name ns maxRetries f s).countP Call.isUpdate : Int) ≤ max maxRetries 0 ∧
      (maxRetries ≤ 0 →
        journal c name ns maxRetries f s = [] ∧
          AtomicUpdateClusterCR c name ns maxRetries f s =
            ((some EtcdCluster.zero, some (GoError.retry maxRetries)), s)) := by
  obtain ⟨tr, e, r1, s1, hruns, hres, htr⟩ := AtomicUpdateClusterCR_runs c name ns maxRetries f s
  obtain ⟨h1, h2, _, h4⟩ := hruns.attempts_le
  rw [htr, hres]
  refine ⟨by omega, by omega, ?_⟩
  intro hle
  obtain ⟨ht, he, hr, hs⟩ := h4 (by omega)
  exact ⟨ht, by rw [he, hr, hs]⟩

/-- Witness of `AtomicUpdateClusterCR_within_budget`: with `maxRetries = 0` the
simulated store that conflicts forever receives no call. -/
theorem AtomicUpdateClusterCR_within_budget_witness :
    journal (simStore 1000 (fun _ => none)) "etcd1" "prod" 0 attachStatus ⟨0, sampleCluster⟩
        = [] ∧
      AtomicUpdateClusterCR (simStore 1000 (fun _ => none)) "etcd1" "prod" 0 attachStatus
          ⟨0, sampleCluster⟩ =
        ((some EtcdCluster.zero, some (GoError.retry 0)), ⟨0, sampleCluster⟩) :=
  (AtomicUpdateClusterCR_within_budget (simStore 1000 (fun _ => none)) "etcd1" "prod" 0
    attachStatus ⟨0, sampleCluster⟩).2.2 (by decide)

/-- C17: `UpdateCluster(crClient, cl, maxRetries, f)` is
`AtomicUpdateClusterCR(crClient, cl.Name, cl.Namespace, maxRetries, f)`; for a
second copy `cl2` with the same name and namespace, whatever its spec, status
and version token, the results, the store state afterwards and the journal of
the calls made to the store, writes included, are the same. -/
theorem UpdateCluster_depends_on_identity {σ : Type} (c : EtcdClusterCR σ) (cl : EtcdCluster)
    (maxRetries : Int) (f : EtcdClusterCRUpdateFunc) (s : σ) :
    UpdateCluster c cl maxRetries f s =
        AtomicUpdateClusterCR c cl.Name cl.Namespace maxRetries f s ∧
      ∀ cl2 : EtcdCluster, cl2.Name = cl.Name → cl2.Namespace = cl.Namespace →
        UpdateCluster c cl2 maxRetries f s = UpdateCluster c cl maxRetries f s ∧
          UpdateCluster (logged c) cl2 maxRetries f (s, []) =
            UpdateCluster (logged c) cl maxRetries f (s, []) := by
  refine ⟨rfl, ?_⟩
  intro cl2 hname hns
  simp only [UpdateCluster, hname, hns, and_self]

/-- Witness of `UpdateCluster_depends_on_identity`: the sample cluster and a
stale copy of it with another version token and no status. -/
theorem UpdateCluster_depends_on_identity_witness :
    UpdateCluster (simStore 1 (fun _ => none))
        { sampleCluster with ResourceVersion := "3" } 5 attachStatus ⟨0, sampleCluster⟩ =
      UpdateCluster (simStore 1 (fun _ => none)) sampleCluster 5 attachStatus
        ⟨0, sampleCluster⟩ ∧
    UpdateCluster (logged (simStore 1 (fun _ => none)))
        { sampleCluster with ResourceVersion := "3" } 5 attachStatus (⟨0, sampleCluster⟩, []) =
      UpdateCluster (logged (simStore 1 (fun _ => none))) sampleCluster 5 attachStatus
        (⟨0, sampleCluster⟩, []) :=
  (UpdateCluster_depends_on_identity (simStore 1 (fun _ => none)) sampleCluster 5 attachStatus
    ⟨0, sampleCluster⟩).2 { sampleCluster with ResourceVersion := "3" } rfl rfl

end e2eutil

/-! Theorems on the `float64` arithmetic -/

theorem log_two_eq (q : ℚ) (e : ℤ) (hlo : (2 : ℚ) ^ e ≤ |q|) (hhi : |q| < (2 : ℚ) ^ (e + 1)) :
    Int.log 2 |q| = e := by
  have hpos : 0 < |q| := lt_of_lt_of_le (zpow_pos (by norm_num) e) hlo
  have h1 : e ≤ Int.log 2 |q| := (Int.zpow_le_iff_le_log (by norm_num) hpos).mp (by exact_mod_cast hlo)
  have h2 : Int.log 2 |q| < e + 1 := (Int.lt_zpow_iff_log_lt (by norm_num) hpos).mp (by exact_mod_cast hhi)
  omega

theorem roundHalfEven_intCast (m : ℤ) : roundHalfEven (m : ℚ) = m := by
  simp [roundHalfEven]

/-- A rational that is a multiple of the spacing of the doubles around it and
lies in the range is rounded to itself. -/
theorem round64_exact (q : ℚ) (e m : ℤ) (hlo : (2 : ℚ) ^ e ≤ |q|)
    (hhi : |q| < (2 : ℚ) ^ (e + 1))
    (hm : q = (m : ℚ) * (2 : ℚ) ^ (max (e - 52) (-1074)))
    (hmax : |q| < (2 : ℚ) ^ (1024 : Int)) : round64 q = Float64.finite q := by
  have hpos : 0 < |q| := lt_of_lt_of_le (zpow_pos (by norm_num) e) hlo
  have hq : q ≠ 0 := abs_pos.mp hpos
  have hlog := log_two_eq q e hlo hhi
  have hp : (2 : ℚ) ^ (max (e - 52) (-1074)) ≠ 0 := zpow_ne_zero _ (by norm_num)
  have hdiv : q / (2 : ℚ) ^ (max (e - 52) (-1074)) = (m : ℚ) := by
    rw [div_eq_iff hp]
    exact hm
  obtain ⟨h1, h2⟩ := abs_lt.mp hmax
  simp only [round64, hq, if_false, hlog, hdiv, roundHalfEven_intCast, ← hm]
  rw [if_neg (not_le.mpr h2), if_neg (not_le.mpr h1)]

theorem round64_zero : round64 0 = Float64.finite 0 := by
  simp [round64]

theorem roundHalfEven_tie_even (q : ℚ) (f : ℤ) (hq : q = (f : ℚ) + 1 / 2) (hf : f % 2 = 0) :
    roundHalfEven q = f := by
  have hfloor : ⌊q⌋ = f := by
    rw [Int.floor_eq_iff, hq]
    constructor <;> linarith
  have hr : q - (f : ℚ) = 1 / 2 := by
    rw [hq]
    ring
  simp only [roundHalfEven, hfloor, hr, lt_irrefl, if_false, hf, if_true]

/-- In `float64`, 1e16 + 1 is 1e16: the sum lies half way between the doubles
1e16 and 1e16 + 2 and the tie goes to the even significand. -/
theorem round64_1e16_plus_1 :
    round64 (10000000000000000 + 1) = Float64.finite 10000000000000000 := by
  have habs : |((10000000000000000 : ℚ) + 1)| = 10000000000000001 := by
    rw [abs_of_pos (by norm_num)]
    norm_num
  have hlog : Int.log 2 |((10000000000000000 : ℚ) + 1)| = 53 :=
    log_two_eq _ 53 (by rw [habs]; norm_num) (by rw [habs]; norm_num)
  have hp : max ((53 : ℤ) - 52) (-1074) = 1 := by decide
  have hround : roundHalfEven (((10000000000000000 : ℚ) + 1) / (2 : ℚ) ^ (1 : ℤ)) =
      5000000000000000 :=
    roundHalfEven_tie_even _ 5000000000000000 (by norm_num) (by decide)
  have hne : ((10000000000000000 : ℚ) + 1) ≠ 0 := by norm_num
  simp only [round64, hne, if_false, hlog, hp, hround]
  norm_num

theorem round64_1 : round64 1 = Float64.finite 1 :=
  round64_exact 1 0 (2 ^ 52) (by norm_num) (by norm_num) (by norm_num) (by norm_num)

theorem round64_3 : round64 3 = Float64.finite 3 :=
  round64_exact 3 1 (3 * 2 ^ 51) (by norm_num) (by norm_num) (by norm_num) (by norm_num)

theorem round64_5 : round64 5 = Float64.finite 5 :=
  round64_exact 5 2 (5 * 2 ^ 50) (by norm_num) (by norm_num) (by norm_num) (by norm_num)

theorem round64_6 : round64 6 = Float64.finite 6 :=
  round64_exact 6 2 (6 * 2 ^ 50) (by norm_num) (by norm_num) (by norm_num) (by norm_num)

theorem round64_1e16 : round64 10000000000000000 = Float64.finite 10000000000000000 :=
  round64_exact 10000000000000000 53 5000000000000000 (by norm_num) (by norm_num)
    (by norm_num) (by norm_num)

theorem round64_1e16_plus_1_norm :
    round64 10000000000000001 = Float64.finite 10000000000000000 := by
  have h := round64_1e16_plus_1
  norm_num at h
  exact h

/-! Theorems on the backup status tracker -/

namespace backupapi

/-- The eviction on a list whose count is right: the last `k` records stay, with
their count. -/
theorem evict_spec (k : Nat) (hk : 0 < k) :
    ∀ (l : List BackupStatus) (total : Float64),
      (BackupStatusTracker.evict (k : Int) l (l.length : Int) total).1 = l.drop (l.length - k) ∧
      (BackupStatusTracker.evict (k : Int) l (l.length : Int) total).2.1 =
        ((l.drop (l.length - k)).length : Int) := by
  intro l
  induction l with
  | nil =>
    intro total
    simp [BackupStatusTracker.evict]
  | cons a l ih =>
    intro total
    by_cases hlt : k < l.length + 1
    · have hcond : (0 : Int) < (k : Int) ∧ (k : Int) < ((a :: l).length : Int) := by
        constructor
        · exact_mod_cast hk
        · simp only [List.length_cons]
          exact_mod_cast hlt
      have hcount : (((a :: l).length : Nat) : Int) - 1 = (l.length : Int) := by
        simp
      have hdrop : (a :: l).drop ((a :: l).length - k) = l.drop (l.length - k) := by
        have : (a :: l).length - k = (l.length - k) + 1 := by
          simp only [List.length_cons]
          omega
        rw [this, List.drop_succ_cons]
      simp only [BackupStatusTracker.evict, hcond, and_self, if_true, hcount, hdrop]
      exact ih _
    · have hcond : ¬ ((0 : Int) < (k : Int) ∧ (k : Int) < ((a :: l).length : Int)) := by
        rintro ⟨_, h2⟩
        simp only [List.length_cons] at h2
        exact hlt (by exact_mod_cast h2)
      have hzero : (a :: l).length - k = 0 := by
        simp only [List.length_cons]
        omega
      simp only [BackupStatusTracker.evict, hcond, if_false, hzero, List.drop_zero, and_self]

theorem trackerInv_Record (k : Nat) (hk : 0 < k) (t : BackupStatusTracker)
    (hist : List BackupStatus) (b : BackupStatus) (h : trackerInv k t hist) :
    trackerInv k (t.Record b) (hist ++ [b]) := by
  obtain ⟨hmax, hret, hcnt⟩ := h
  have hlen : ((t.retained ++ [b]).length : Int) = t.Backups + 1 := by
    simp [hcnt]
  have hev := evict_spec k hk (t.retained ++ [b]) (t.BackupSize.add b.Size)
  rw [hlen] at hev
  have hdrop : (t.retained ++ [b]).drop ((t.retained ++ [b]).length - k) =
      (hist ++ [b]).drop ((hist ++ [b]).length - k) := by
    rw [hret]
    simp only [List.length_append, List.length_drop, List.length_singleton]
    by_cases hle : hist.length < k
    · have h0 : hist.length - k = 0 := by omega
      have h1 : hist.length - 0 + 1 - k = 0 := by omega
      have h2 : hist.length + 1 - k = 0 := by omega
      simp [h0, h1, h2]
    · have hd1 : hist.length - (hist.length - k) + 1 - k = 1 := by omega
      have hd2 : hist.length + 1 - k = (hist.length - k) + 1 := by omega
      rw [hd1, hd2]
      rw [List.drop_append_of_le_length (by simp; omega),
        List.drop_append_of_le_length (by omega), List.drop_drop]
  refine ⟨?_, ?_, ?_⟩
  · simp [BackupStatusTracker.Record, hmax]
  · simp only [BackupStatusTracker.Record, hmax, hev.1]
    exact hdrop
  · simp only [BackupStatusTracker.Record, hmax, hev.1, hev.2]

theorem trackerInv_foldl (k : Nat) (hk : 0 < k) (recs : List BackupStatus) :
    ∀ (t : BackupStatusTracker) (hist : List BackupStatus), trackerInv k t hist →
      trackerInv k (recs.foldl BackupStatusTracker.Record t) (hist ++ recs) := by
  induction recs with
  | nil =>
    intro t hist h
    simpa using h
  | cons b recs ih =>
    intro t hist h
    have := ih (t.Record b) (hist ++ [b]) (trackerInv_Record k hk t hist b h)
    simpa using this

theorem trackerInv_empty (k : Nat) : trackerInv k (BackupStatusTracker.empty (k : Int)) [] := by
  simp [trackerInv, BackupStatusTracker.empty]

/-- When every subtraction of the eviction is exact, the running total stays the
exact sum of the sizes retained. -/
theorem evict_exact (maxBackups : Int) :
    ∀ (l : List BackupStatus) (count : Int) (total : Float64),
      total = Float64.finite (totalSize l) → (∀ b ∈ l, b.Size = Float64.finite (sizeValue b)) →
      evictExact maxBackups l count total →
        (BackupStatusTracker.evict maxBackups l count total).2.2 =
            Float64.finite (totalSize (BackupStatusTracker.evict maxBackups l count total).1) ∧
          ∀ b ∈ (BackupStatusTracker.evict maxBackups l count total).1,
            b.Size = Float64.finite (sizeValue b) := by
  intro l
  induction l with
  | nil =>
    intro count total ht _ _
    simp [BackupStatusTracker.evict, ht]
  | cons a l ih =>
    intro count total ht hfin hex
    by_cases hcond : 0 < maxBackups ∧ maxBackups < count
    · simp only [evictExact, hcond, and_self, if_true] at hex
      obtain ⟨hsub, hrest⟩ := hex
      have ha := hfin a (by simp)
      have hsubv : total.sub a.Size = Float64.finite (totalSize l) := by
        rw [ht, ha] at hsub ⊢
        simp only [exactSub] at hsub
        simp only [Float64.sub, Float64.neg, Float64.add, ← sub_eq_add_neg, hsub]
        simp [totalSize]
      simp only [BackupStatusTracker.evict, hcond, and_self, if_true]
      exact ih (count - 1) _ hsubv (fun b hb => hfin b (List.mem_cons_of_mem _ hb)) hrest
    · simp only [BackupStatusTracker.evict, hcond, if_false]
      exact ⟨ht, hfin⟩

theorem sizeInv_Record (t : BackupStatusTracker) (b : BackupStatus) (h : sizeInv t)
    (hex : recordExact t b) : sizeInv (t.Record b) := by
  obtain ⟨htot, hfin⟩ := h
  obtain ⟨hadd, hev⟩ := hex
  rw [htot] at hadd
  cases hb : b.Size with
  | finite y =>
    rw [hb] at hadd
    simp only [exactAdd] at hadd
    have hval : sizeValue b = y := by simp [sizeValue, hb]
    have haddv : t.BackupSize.add b.Size = Float64.finite (totalSize (t.retained ++ [b])) := by
      rw [htot, hb]
      simp only [Float64.add, hadd]
      simp [totalSize, hval]
    have hfin2 : ∀ x ∈ t.retained ++ [b], x.Size = Float64.finite (sizeValue x) := by
      intro x hx
      simp at hx
      rcases hx with hx | hx
      · exact hfin x hx
      · rw [hx, hb, hval]
    exact evict_exact t.MaxBackups _ _ _ haddv hfin2 hev
  | posInf =>
    rw [hb] at hadd
    simp [exactAdd] at hadd
  | negInf =>
    rw [hb] at hadd
    simp [exactAdd] at hadd
  | nan =>
    rw [hb] at hadd
    simp [exactAdd] at hadd

theorem sizeInv_foldl (recs : List BackupStatus) :
    ∀ (t : BackupStatusTracker), sizeInv t → runExact t recs →
      sizeInv (recs.foldl BackupStatusTracker.Record t) := by
  induction recs with
  | nil =>
    intro t h _
    simpa using h
  | cons b recs ih =>
    intro t h hex
    obtain ⟨h1, h2⟩ := hex
    exact ih (t.Record b) (sizeInv_Record t b h h1) h2

theorem sizeInv_empty (k : Int) : sizeInv (BackupStatusTracker.empty k) := by
  simp [sizeInv, BackupStatusTracker.empty, totalSize]

theorem sub_self_1e16 :
    (Float64.finite 10000000000000000).sub (Float64.finite 10000000000000000) =
      Float64.finite 0 := by
  simp only [Float64.sub, Float64.neg, Float64.add, add_neg_cancel, round64_zero]

theorem drift_step1 :
    (BackupStatusTracker.empty 1).Record (sampleBackup "A" 10000000000000000) =
      { MaxBackups := 1, retained := [sampleBackup "A" 10000000000000000], Backups := 1,
        BackupSize := Float64.finite 10000000000000000 } := by
  simp only [BackupStatusTracker.Record, BackupStatusTracker.empty, List.nil_append,
    sampleBackup, Float64.add, zero_add, round64_1e16, BackupStatusTracker.evict]
  simp

theorem drift_step2 :
    BackupStatusTracker.Record
        { MaxBackups := 1, retained := [sampleBackup "A" 10000000000000000], Backups := 1,
          BackupSize := Float64.finite 10000000000000000 } (sampleBackup "B" 1) =
      { MaxBackups := 1, retained := [sampleBackup "B" 1], Backups := 1,
        BackupSize := Float64.finite 0 } := by
  simp only [BackupStatusTracker.Record, sampleBackup, Float64.add, round64_1e16_plus_1,
    List.singleton_append, BackupStatusTracker.evict, sub_self_1e16]
  simp

theorem drift_state : [sampleBackup "A" 10000000000000000, sampleBackup "B" 1].foldl
        BackupStatusTracker.Record (BackupStatusTracker.empty 1) =
      { MaxBackups := 1, retained := [sampleBackup "B" 1], Backups := 1,
        BackupSize := Float64.finite 0 } := by
  simp only [List.foldl, drift_step1, drift_step2]

theorem retained_step1 :
    (BackupStatusTracker.empty 2).Record (sampleBackup "A" 1) =
      { MaxBackups := 2, retained := [sampleBackup "A" 1], Backups := 1,
        BackupSize := Float64.finite 1 } := by
  simp only [BackupStatusTracker.Record, BackupStatusTracker.empty, List.nil_append,
    sampleBackup, Float64.add, zero_add, round64_1, BackupStatusTracker.evict]
  simp

theorem retained_step2 :
    BackupStatusTracker.Record
        { MaxBackups := 2, retained := [sampleBackup "A" 1], Backups := 1,
          BackupSize := Float64.finite 1 } (sampleBackup "B" 2) =
      { MaxBackups := 2, retained := [sampleBackup "A" 1, sampleBackup "B" 2], Backups := 2,
        BackupSize := Float64.finite 3 } := by
  have h12 : round64 (1 + 2) = Float64.finite 3 := by
    have := round64_3
    norm_num
    exact this
  simp only [BackupStatusTracker.Record, sampleBackup, Float64.add, h12,
    List.singleton_append, BackupStatusTracker.evict]
  simp

/-- C12, as stated, fails on the size: sizes are `float64` and the running total
is rounded. Under `MaxBackups = 1` the records of the sizes 1e16 and 1 leave
the record of size 1 retained, but `BackupSize` is 0: 1e16 + 1 is rounded to
1e16, and the eviction subtracts 1e16. -/
theorem Record_size_drifts :
    ([sampleBackup "A" 10000000000000000, sampleBackup "B" 1].foldl
        BackupStatusTracker.Record (BackupStatusTracker.empty 1)).retained =
      [sampleBackup "B" 1] ∧
    ([sampleBackup "A" 10000000000000000, sampleBackup "B" 1].foldl
        BackupStatusTracker.Record (BackupStatusTracker.empty 1)).Snapshot.BackupSize =
      Float64.finite 0 ∧
    (sampleBackup "B" 1).Size = Float64.finite 1 ∧
    (Float64.finite 0).add (sampleBackup "B" 1).Size = Float64.finite 1 ∧
    Float64.finite 0 ≠ Float64.finite 1 := by
  rw [drift_state]
  refine ⟨rfl, rfl, rfl, ?_, by simp⟩
  simp only [sampleBackup, Float64.add, zero_add, round64_1]

/-- C12, amended: after any sequence `recs` of `Record` calls on a tracker under
`MaxBackups = k > 0`, `Snapshot` reports `Backups = min(k, number recorded)`,
the retained set is exactly the `k` most recently recorded entries (the oldest
are evicted first) and `RecentBackup` is the entry recorded last; `BackupSize`
is the `float64` running total, and it is the sum of the sizes of the retained
entries whenever every addition and subtraction made on it is exact. -/
theorem Record_retention (k : Int) (hk : 0 < k) (recs : List BackupStatus) :
    (recs.foldl BackupStatusTracker.Record (BackupStatusTracker.empty k)).Snapshot.Backups =
        min k (recs.length : Int) ∧
      (recs.foldl BackupStatusTracker.Record (BackupStatusTracker.empty k)).retained =
        recs.drop (recs.length - k.toNat) ∧
      (recs.foldl BackupStatusTracker.Record (BackupStatusTracker.empty k)).Snapshot.RecentBackup =
        recs.getLast? ∧
      (runExact (BackupStatusTracker.empty k) recs →
        (recs.foldl BackupStatusTracker.Record (BackupStatusTracker.empty k)).Snapshot.BackupSize =
          Float64.finite
            (totalSize
              (recs.foldl BackupStatusTracker.Record (BackupStatusTracker.empty k)).retained) ∧
        ∀ b ∈ (recs.foldl BackupStatusTracker.Record (BackupStatusTracker.empty k)).retained,
          b.Size = Float64.finite (sizeValue b)) := by
  have hsize := fun hex => sizeInv_foldl recs (BackupStatusTracker.empty k) (sizeInv_empty k) hex
  obtain ⟨K, rfl⟩ := Int.eq_ofNat_of_zero_le hk.le
  have hK : 0 < K := by exact_mod_cast hk
  have hinv := trackerInv_foldl K hK recs (BackupStatusTracker.empty (K : Int)) []
    (trackerInv_empty K)
  rw [List.nil_append] at hinv
  obtain ⟨_, hret, hcnt⟩ := hinv
  refine ⟨?_, ?_, ?_, ?_⟩
  · simp only [BackupStatusTracker.Snapshot, hcnt, hret, List.length_drop]
    omega
  · simpa using hret
  · simp only [BackupStatusTracker.Snapshot, hret, List.getLast?_drop]
    by_cases hnil : recs = []
    · simp [hnil]
    · have hpos : 0 < recs.length := List.length_pos.mpr hnil
      have : ¬ recs.length ≤ recs.length - K := by omega
      simp [this]
  · intro hex
    exact hsize hex

/-- Witness of `Record_retention`: under `MaxBackups = 2` the records A, B, C of
the sizes 1, 2, 3 give `Backups = 2`, `BackupSize = 5` and `RecentBackup = C`,
with B and C retained; the additions 0+1, 1+2, 3+3 and the subtraction 6-1 are
exact. -/
theorem Record_retention_witness :
    runExact (BackupStatusTracker.empty 2)
        [sampleBackup "A" 1, sampleBackup "B" 2, sampleBackup "C" 3] ∧
    ([sampleBackup "A" 1, sampleBackup "B" 2, sampleBackup "C" 3].foldl
        BackupStatusTracker.Record (BackupStatusTracker.empty 2)).Snapshot =
      { RecentBackup := some (sampleBackup "C" 3), Backups := 2,
        BackupSize := Float64.finite 5 } ∧
    ([sampleBackup "A" 1, sampleBackup "B" 2, sampleBackup "C" 3].foldl
        BackupStatusTracker.Record (BackupStatusTracker.empty 2)).retained =
      [sampleBackup "B" 2, sampleBackup "C" 3] := by
  have hex : runExact (BackupStatusTracker.empty 2)
      [sampleBackup "A" 1, sampleBackup "B" 2, sampleBackup "C" 3] := by
    simp only [runExact, recordExact, retained_step1, retained_step2, and_true]
    simp only [BackupStatusTracker.empty, sampleBackup, exactAdd, evictExact, List.nil_append,
      List.cons_append, zero_add, round64_1, Float64.add, exactSub]
    norm_num [round64_3, round64_6, round64_5]
  refine ⟨hex, ?_⟩
  have h := Record_retention 2 (by decide)
    [sampleBackup "A" 1, sampleBackup "B" 2, sampleBackup "C" 3]
  obtain ⟨h1, h2, h3, h4⟩ := h
  have h2a : ([sampleBackup "A" 1, sampleBackup "B" 2, sampleBackup "C" 3].foldl
        BackupStatusTracker.Record (BackupStatusTracker.empty 2)).retained =
      [sampleBackup "B" 2, sampleBackup "C" 3] := by
    rw [h2]
    rfl
  refine ⟨?_, h2a⟩
  have h5 := (h4 hex).1
  rw [h2a] at h5
  have h6 : totalSize [sampleBackup "B" 2, sampleBackup "C" 3] = 5 := by
    simp [totalSize, sampleBackup, sizeValue]
    norm_num
  cases hs : ([sampleBackup "A" 1, sampleBackup "B" 2, sampleBackup "C" 3].foldl
        BackupStatusTracker.Record (BackupStatusTracker.empty 2)).Snapshot with
  | mk recent backups size =>
    rw [hs] at h1 h3 h5
    simp only at h1 h3 h5
    rw [h1, h3, h5, h6]
    simp

end backupapi

/-! Theorems on the deletion waiter -/

namespace e2eutil

/-- The polling goes through all the cycles left when in each of them the
checks report and do not both report empty. -/
theorem waitLoop_never_empty (check : Nat → Except GoError (Bool × Bool)) :
    ∀ (n i : Nat),
      (∀ j, i ≤ j → j < i + n → ∃ a b, check j = Except.ok (a, b) ∧ (a && b) = false) →
        waitLoop check n i = (WaitOutcome.TimedOut, i + n) := by
  intro n
  induction n with
  | zero =>
    intro i _
    simp [waitLoop]
  | succ n ih =>
    intro i h
    obtain ⟨a, b, hc, hab⟩ := h i (le_refl _) (by omega)
    have hrest := ih (i + 1) (fun j h1 h2 => h j (by omega) (by omega))
    have harith : i + 1 + n = i + (n + 1) := by omega
    cases a <;> cases b <;> simp at hab <;> simp [waitLoop, hc, hrest, harith]

/-- C13: with time counted in poll cycles, `WaitBackupDeleted` returns success
after the first poll when both checks report empty in it; when in every poll
that the deadline covers the checks report and do not both report empty, it
returns the timeout outcome after exactly the polls that the deadline covers,
neither fewer nor more; the timeout outcome differs from every check error. -/
theorem WaitBackupDeleted_outcome (deadline : Nat)
    (check : Nat → Except GoError (Bool × Bool)) :
    (0 < deadline → check 0 = Except.ok (true, true) →
        WaitBackupDeleted deadline check = (WaitOutcome.Confirmed, 1)) ∧
      ((∀ i, i < deadline → ∃ a b, check i = Except.ok (a, b) ∧ (a && b) = false) →
        WaitBackupDeleted deadline check = (WaitOutcome.TimedOut, deadline)) ∧
      ∀ err : GoError, WaitOutcome.TimedOut ≠ WaitOutcome.Errored err := by
  refine ⟨?_, ?_, ?_⟩
  · intro hpos hc
    obtain ⟨n, rfl⟩ := Nat.exists_eq_succ_of_ne_zero (Nat.pos_iff_ne_zero.mp hpos)
    simp [WaitBackupDeleted, waitLoop, hc]
  · intro h
    have := waitLoop_never_empty check deadline 0 (fun j _ h2 => h j (by omega))
    simpa [WaitBackupDeleted] using this
  · intro err h
    cases h

/-- Witness of `WaitBackupDeleted_outcome`: both checks empty at once gives
success after one poll; a backend that still lists an object in every poll,
under a deadline that covers 2 polls, gives the timeout after 2 polls. -/
theorem WaitBackupDeleted_outcome_witness :
    WaitBackupDeleted 5 (fun _ => Except.ok (true, true)) = (WaitOutcome.Confirmed, 1) ∧
      WaitBackupDeleted 2 (fun _ => Except.ok (true, false)) = (WaitOutcome.TimedOut, 2) :=
  ⟨(WaitBackupDeleted_outcome 5 (fun _ => Except.ok (true, true))).1 (by decide) rfl,
    (WaitBackupDeleted_outcome 2 (fun _ => Except.ok (true, false))).2.1
      (fun _ _ => ⟨true, false, rfl, rfl⟩)⟩

end e2eutil
